import Mathlib

set_option maxRecDepth 8000
set_option maxHeartbeats 1600000

namespace JackC

/-! Shallow embedding of the Jack front end (src/tokenizer.rs, src/tree.rs,
src/parser.rs, src/main.rs).  Source text is a list of characters; the
byte-oriented quantities of the Rust code (string lengths used as removal
counts) are modelled explicitly via UTF-8 byte sizes.  A Rust panic is
modelled as `none`. -/

/-- Token types of the tokenizer (src/tokenizer.rs, enum TokenType). -/
inductive TokenType where
  | Keyword
  | Symbol
  | IntegerConstant
  | StringConstant
  | Identifier
  | EndOfFile
deriving DecidableEq

/-- A lexical token (src/tokenizer.rs, struct Token). -/
structure Token where
  token : TokenType
  value : List Char
deriving DecidableEq

/-- Unicode White_Space, the set accepted by the char method that Rust's
trim_start uses (Tokenizer::next strips leading whitespace with it). -/
def isRustWS (c : Char) : Bool :=
  (0x9 ≤ c.toNat && c.toNat ≤ 0xd) || c.toNat == 0x20 || c.toNat == 0x85 ||
  c.toNat == 0xa0 || c.toNat == 0x1680 ||
  (0x2000 ≤ c.toNat && c.toNat ≤ 0x200a) ||
  c.toNat == 0x2028 || c.toNat == 0x2029 || c.toNat == 0x202f ||
  c.toNat == 0x205f || c.toNat == 0x3000

/-- UTF-8 byte size of one character (what Rust str::len counts). -/
def utf8SizeC (c : Char) : Nat :=
  if c.toNat < 0x80 then 1
  else if c.toNat < 0x800 then 2
  else if c.toNat < 0x10000 then 3
  else 4

/-- UTF-8 byte length of a character list. -/
def utf8Len (s : List Char) : Nat := (s.map utf8SizeC).sum

/-- The KEYWORDS alternation of src/tokenizer.rs in its source order. -/
def keywordList : List (List Char) :=
  [("class").data, ("constructor").data, ("function").data, ("method").data,
   ("field").data, ("static").data, ("var").data, ("int").data, ("char").data,
   ("boolean").data, ("void").data, ("true").data, ("false").data,
   ("null").data, ("this").data, ("let").data, ("do").data, ("if").data,
   ("else").data, ("while").data, ("return").data]

/-- Leftmost-first match of the anchored KEYWORDS alternation: the first
alternative in source order that matches at the start of the text.  The
regex has no word boundary, so a keyword matches even when identifier
characters follow it. -/
def keywordMatch (t : List Char) : Option (List Char) :=
  keywordList.find? (fun k => k.isPrefixOf t)

/-- The single-character SYMBOLS class of src/tokenizer.rs. -/
def symbolChars : List Char :=
  ['{', '}', '(', ')', '[', ']', '.', ',', ';', '+', '-', '*', '/', '&',
   '|', '<', '>', '=', '~']

def symbolMatch : List Char → Option (List Char)
  | [] => none
  | c :: _ => if c ∈ symbolChars then some [c] else none

def isDigitC (c : Char) : Bool := '0' ≤ c && c ≤ '9'

/-- The INTEGER_CONSTANTS pattern: one to five leading digits, greedy. -/
def integerMatch (t : List Char) : Option (List Char) :=
  let ds := (t.takeWhile isDigitC).take 5
  if ds.isEmpty then none else some ds

/-- Index of the last double quote in a list, if any. -/
def lastQuoteIdx : List Char → Option Nat
  | [] => none
  | c :: cs =>
    match lastQuoteIdx cs with
    | some i => some (i + 1)
    | none => if c = '"' then some 0 else none

/-- The STRING_CONSTANTS pattern: an opening quote, then a greedy dot-run
(the dot does not cross a newline) ending at the last quote on the current
line. -/
def stringMatch : List Char → Option (List Char)
  | [] => none
  | c :: rest =>
    if c = '"' then
      match lastQuoteIdx (rest.takeWhile (fun d => d ≠ '\n')) with
      | some i => some ('"' :: rest.take (i + 1))
      | none => none
    else none

def isAsciiAlpha (c : Char) : Bool :=
  ('a' ≤ c && c ≤ 'z') || ('A' ≤ c && c ≤ 'Z')

def isIdentStart (c : Char) : Bool := c = '_' || isAsciiAlpha c

def isIdentCont (c : Char) : Bool := c = '_' || isAsciiAlpha c || isDigitC c

/-- The IDENTIFIERS pattern: letter or underscore, then a greedy
alphanumeric/underscore run (ASCII classes). -/
def identMatch : List Char → Option (List Char)
  | [] => none
  | c :: cs =>
    if isIdentStart c then some (c :: cs.takeWhile isIdentCont) else none

/-- The COMMENTS pattern: two slashes then a greedy dot-run to the end of
the line. -/
def commentMatch : List Char → Option (List Char)
  | c1 :: c2 :: rest =>
    if c1 = '/' ∧ c2 = '/' then
      some ('/' :: '/' :: rest.takeWhile (fun c => c ≠ '\n'))
    else none
  | _ => none

/-- Tokenizer::remove_n_first_chars: removes `count` characters one at a
time from the front; String::remove panics (`none`) when the text runs out
before `count` characters were removed. -/
def removeFirst (count : Nat) (s : List Char) : Option (List Char) :=
  if count ≤ s.length then some (s.drop count) else none

/-- The whitespace stripping and comment-discarding prefix of
Tokenizer::next: trim leading whitespace; while a line comment matches,
remove its matched byte count as a character count and retry. -/
def stripJunk : Nat → List Char → Option (List Char)
  | 0, _ => none
  | fuel + 1, s =>
    let t := s.dropWhile isRustWS
    match commentMatch t with
    | none => some t
    | some m =>
      match removeFirst (utf8Len m) t with
      | some t2 => stripJunk fuel t2
      | none => none

/-- The pattern cascade of Tokenizer::next in source priority order
(keyword, symbol, integer constant, string constant, identifier). -/
def matchToken (t : List Char) : Option (TokenType × List Char) :=
  match keywordMatch t with
  | some v => some (TokenType.Keyword, v)
  | none =>
  match symbolMatch t with
  | some v => some (TokenType.Symbol, v)
  | none =>
  match integerMatch t with
  | some v => some (TokenType.IntegerConstant, v)
  | none =>
  match stringMatch t with
  | some v => some (TokenType.StringConstant, v)
  | none =>
  match identMatch t with
  | some v => some (TokenType.Identifier, v)
  | none => none

/-- Tokenizer::next: strips junk, matches one pattern, removes the matched
value's byte length as a character count, and returns the token; if no
pattern matches (including exhausted text) it returns the EndOfFile
sentinel with empty text and consumes nothing. -/
def nextTok (fuel : Nat) (s : List Char) : Option (Token × List Char) :=
  match stripJunk fuel s with
  | none => none
  | some t =>
    match matchToken t with
    | none => some (⟨TokenType.EndOfFile, []⟩, t)
    | some (ty, v) =>
      match removeFirst (utf8Len v) t with
      | some rest => some (⟨ty, v⟩, rest)
      | none => none

/-- The collection loop of tokens_for_file (src/main.rs): gather tokens
until the first EndOfFile; the text remaining at that point is also
returned so that its subsequent disposal can be stated. -/
def tokensRun : Nat → List Char → Option (List Token × List Char)
  | 0, _ => none
  | fuel + 1, s =>
    match nextTok (fuel + 1) s with
    | none => none
    | some (tok, rest) =>
      if tok.token = TokenType.EndOfFile then some ([], rest)
      else
        match tokensRun fuel rest with
        | none => none
        | some (toks, r) => some (tok :: toks, r)

/-- tokens_for_file (src/main.rs): the token list handed to the parser;
whatever text remained at the EndOfFile point is dropped. -/
def tokensForFile (fuel : Nat) (s : List Char) : Option (List Token) :=
  (tokensRun fuel s).map (fun p => p.1)

/-! ### The parse tree (src/tree.rs) -/

/-- Parse-tree elements: inner nodes with a name and children, and leaves
with a name and a value. -/
inductive TreeElement where
  | node (name : List Char) (children : List TreeElement)
  | leaf (name : List Char) (value : List Char)

/-- The two-space indentation prefix written by to_xml_indent. -/
def indentStr : Nat → List Char
  | 0 => []
  | i + 1 => ' ' :: ' ' :: indentStr i

mutual

/-- Node::to_xml_indent and Leaf::to_xml_indent (src/tree.rs): a node
renders an indented open-tag line, its children at one deeper indent, and
an indented close-tag line; a leaf renders one indented element line. -/
def toXmlIndent : TreeElement → Nat → List Char
  | TreeElement.leaf n v, i =>
    (indentStr i ++ '<' :: (n ++ '>' :: (v ++ '<' :: '/' :: (n ++ ['>'])))) ++ '\n' :: []
  | TreeElement.node n cs, i =>
    ((indentStr i ++ '<' :: (n ++ ['>'])) ++ '\n' :: []) ++
      (toXmlChildren cs (i + 1) ++
        ((indentStr i ++ '<' :: '/' :: (n ++ ['>'])) ++ '\n' :: []))

/-- Concatenated rendering of a node's children at a given indent. -/
def toXmlChildren : List TreeElement → Nat → List Char
  | [], _ => []
  | e :: es, i => toXmlIndent e i ++ toXmlChildren es i

end

/-- The Tree wrapper (src/tree.rs). -/
structure Tree where
  root : TreeElement

/-- Tree::to_xml: the root renders itself unindented with children at
indent 1, which is rendering the root at indent 0. -/
def Tree.toXml (t : Tree) : List Char := toXmlIndent t.root 0

/-! ### Lines of a text -/

def splitLinesAux : List Char → List Char → List (List Char)
  | [], acc => if acc.isEmpty then [] else [acc.reverse]
  | c :: rest, acc =>
    if c = '\n' then acc.reverse :: splitLinesAux rest []
    else splitLinesAux rest (c :: acc)

/-- The lines of a text: maximal newline-free runs; a final newline does
not open an extra empty line. -/
def splitLines (s : List Char) : List (List Char) := splitLinesAux s []

/-- Shape of one rendered XML line: two-space indents, then an open tag,
a close tag, or a one-line leaf element. -/
def nameOKB (n : List Char) : Bool :=
  !n.isEmpty && n.all (fun c => c ≠ '\n' && c ≠ '<' && c ≠ '>' && c ≠ '/')

def isXmlLineB (l : List Char) : Bool :=
  match l.dropWhile (fun c => c = ' ') with
  | '<' :: '/' :: rest => rest.getLast? == some '>' && nameOKB rest.dropLast
  | '<' :: rest =>
    let n := rest.takeWhile (fun c => c ≠ '>')
    if n.length = rest.length then false
    else
      let after := rest.drop (n.length + 1)
      if after.isEmpty then nameOKB n
      else
        nameOKB n &&
        decide (n.length + 3 ≤ after.length) &&
        (after.drop (after.length - (n.length + 3)) == '<' :: '/' :: (n ++ ['>'])) &&
        (after.take (after.length - (n.length + 3))).all (fun c => c ≠ '\n')
  | _ => false

/-! ### The claimed instruction-line forms (spec side)

Modelled from the spec: the textual stack-machine instruction set that the
specification claims each output line belongs to.  Only used to state and
refute the output-format claim; the source code has no such emitter. -/

def splitWordsAux : List Char → List Char → List (List Char)
  | [], acc => if acc.isEmpty then [] else [acc.reverse]
  | c :: rest, acc =>
    if c = ' ' then
      (if acc.isEmpty then splitWordsAux rest [] else acc.reverse :: splitWordsAux rest [])
    else splitWordsAux rest (c :: acc)

def splitWords (l : List Char) : List (List Char) := splitWordsAux l []

def specArithWords : List (List Char) :=
  [("add").data, ("sub").data, ("neg").data, ("eq").data, ("gt").data,
   ("lt").data, ("and").data, ("or").data, ("not").data]

def specSegments : List (List Char) :=
  [("constant").data, ("argument").data, ("local").data, ("static").data,
   ("this").data, ("that").data, ("pointer").data, ("temp").data]

/-- Modelled from the spec: one line of the claimed instruction set:
push/pop seg index, an arithmetic word, label L, goto L, if-goto L,
function Class.name nLocals, call Name nArgs, or return. -/
def specInstrLineB (l : List Char) : Bool :=
  match splitWords l with
  | [w] => w ∈ specArithWords || w == ("return").data
  | [w, a] =>
    (w == ("label").data || w == ("goto").data || w == ("if-goto").data) &&
      !a.isEmpty
  | [w, a, b] =>
    ((w == ("push").data || w == ("pop").data) && a ∈ specSegments &&
        !b.isEmpty && b.all isDigitC) ||
    ((w == ("function").data || w == ("call").data) && !a.isEmpty &&
        !b.isEmpty && b.all isDigitC)
  | _ => false

/-! ### The parser (src/parser.rs) -/

/-- Parser::next: pop_front with unwrap; `none` models the panic when the
queue is exhausted. -/
def pnext : List Token → Option (Token × List Token)
  | [] => none
  | t :: ts => some (t, ts)

/-- Parser::peek: front with unwrap; `none` models the panic. -/
def ppeek : List Token → Option Token
  | [] => none
  | t :: _ => some t

def keywordLeaf (v : List Char) : TreeElement := TreeElement.leaf ("keyword").data v

def symbolLeaf (v : List Char) : TreeElement := TreeElement.leaf ("symbol").data v

def identifierLeaf (v : List Char) : TreeElement :=
  TreeElement.leaf ("identifier").data v

/-- Parser::parse_var_name. -/
def parseVarName (q : List Token) : Option (TreeElement × List Token) := do
  let (t, q1) ← pnext q
  pure (TreeElement.node ("var_name").data [identifierLeaf t.value], q1)

/-- Parser::parse_subroutine_name. -/
def parseSubroutineName (q : List Token) : Option (TreeElement × List Token) := do
  let (t, q1) ← pnext q
  pure (TreeElement.node ("subroutine_name").data [identifierLeaf t.value], q1)

/-- Parser::parse_class_name. -/
def parseClassName (q : List Token) : Option (TreeElement × List Token) := do
  let (t, q1) ← pnext q
  pure (TreeElement.node ("class_name").data [identifierLeaf t.value], q1)

/-- Parser::parse_type: int/char/boolean keyword, else a class name. -/
def parseType (q : List Token) : Option (TreeElement × List Token) := do
  let t ← ppeek q
  if t.value = ("int").data ∨ t.value = ("char").data ∨ t.value = ("boolean").data then do
    let (t1, q1) ← pnext q
    pure (TreeElement.node ("type").data [keywordLeaf t1.value], q1)
  else do
    let (cn, q1) ← parseClassName q
    pure (TreeElement.node ("type").data [cn], q1)

/-- Parser::parse_op. -/
def parseOp (q : List Token) : Option (TreeElement × List Token) := do
  let (t, q1) ← pnext q
  pure (TreeElement.node ("op").data [symbolLeaf t.value], q1)

/-- Parser::parse_unary_op (a bare leaf, not a node). -/
def parseUnaryOp (q : List Token) : Option (TreeElement × List Token) := do
  let (t, q1) ← pnext q
  pure (TreeElement.leaf ("unary_op").data t.value, q1)

/-- Parser::parse_integer_constant. -/
def parseIntegerConstant (q : List Token) : Option (TreeElement × List Token) := do
  let (t, q1) ← pnext q
  pure (TreeElement.node ("integer_constant").data
    [TreeElement.leaf ("integer_constant").data t.value], q1)

/-- Parser::parse_string_constant. -/
def parseStringConstant (q : List Token) : Option (TreeElement × List Token) := do
  let (t, q1) ← pnext q
  pure (TreeElement.node ("string_constant").data
    [TreeElement.leaf ("string_constant").data t.value], q1)

/-- Parser::parse_keyword_constant. -/
def parseKeywordConstant (q : List Token) : Option (TreeElement × List Token) := do
  let (t, q1) ← pnext q
  pure (TreeElement.node ("keyword_constant").data
    [TreeElement.leaf ("keyword_constant").data t.value], q1)

def isStatementKw (v : List Char) : Bool :=
  v == ("let").data || v == ("if").data || v == ("while").data ||
  v == ("do").data || v == ("return").data

def isBinaryOp (v : List Char) : Bool :=
  v == ("+").data || v == ("-").data || v == ("*").data || v == ("/").data ||
  v == ("&").data || v == ("|").data || v == ("<").data || v == (">").data ||
  v == ("=").data

mutual

/-- Parser::parse_class. -/
def parseClass : Nat → List Token → Option (TreeElement × List Token)
  | 0, _ => none
  | fuel + 1, q => do
    let (t1, q1) ← pnext q
    let (t2, q2) ← pnext q1
    let (t3, q3) ← pnext q2
    let (vars, q4) ← parseClassVarLoop fuel q3
    let (subs, q5) ← parseSubroutineLoop fuel q4
    let (t4, q6) ← pnext q5
    pure (TreeElement.node ("class").data
      (keywordLeaf t1.value :: identifierLeaf t2.value :: symbolLeaf t3.value ::
        (vars ++ subs ++ [symbolLeaf t4.value])), q6)

/-- The class-variable loop in parse_class (peek for static/field). -/
def parseClassVarLoop : Nat → List Token → Option (List TreeElement × List Token)
  | 0, _ => none
  | fuel + 1, q => do
    let t ← ppeek q
    if t.value = ("static").data ∨ t.value = ("field").data then do
      let (e, q1) ← parseClassVarDec fuel q
      let (es, q2) ← parseClassVarLoop fuel q1
      pure (e :: es, q2)
    else pure ([], q)

/-- The subroutine loop in parse_class (peek for
constructor/function/method). -/
def parseSubroutineLoop : Nat → List Token → Option (List TreeElement × List Token)
  | 0, _ => none
  | fuel + 1, q => do
    let t ← ppeek q
    if t.value = ("constructor").data ∨ t.value = ("function").data ∨
        t.value = ("method").data then do
      let (e, q1) ← parseSubroutineDec fuel q
      let (es, q2) ← parseSubroutineLoop fuel q1
      pure (e :: es, q2)
    else pure ([], q)

/-- Parser::parse_class_var_dec. -/
def parseClassVarDec : Nat → List Token → Option (TreeElement × List Token)
  | 0, _ => none
  | fuel + 1, q => do
    let (kw, q1) ← pnext q
    let (ty, q2) ← parseType q1
    let (kids, q3) ← parseClassVarNames fuel q2
    pure (TreeElement.node ("class_var_dec").data
      (keywordLeaf kw.value :: ty :: kids), q3)

/-- The name loop of parse_class_var_dec: each separator (comma or
semicolon) is consumed and recorded as a symbol leaf; a semicolon stops. -/
def parseClassVarNames : Nat → List Token → Option (List TreeElement × List Token)
  | 0, _ => none
  | fuel + 1, q => do
    let (vn, q1) ← parseVarName q
    let (cs, q2) ← pnext q1
    if cs.value = (";").data then
      pure ([vn, symbolLeaf cs.value], q2)
    else do
      let (kids, q3) ← parseClassVarNames fuel q2
      pure (vn :: symbolLeaf cs.value :: kids, q3)

/-- Parser::parse_subroutine_dec. -/
def parseSubroutineDec : Nat → List Token → Option (TreeElement × List Token)
  | 0, _ => none
  | fuel + 1, q => do
    let (kw, q1) ← pnext q
    let t ← ppeek q1
    let (rt, q2) ←
      if t.value = ("void").data then do
        let (v, qa) ← pnext q1
        pure (keywordLeaf v.value, qa)
      else parseType q1
    let (nm, q3) ← parseSubroutineName q2
    let (lp, q4) ← pnext q3
    let (pl, q5) ← parseParameterList fuel q4
    let (rp, q6) ← pnext q5
    let (body, q7) ← parseSubroutineBody fuel q6
    pure (TreeElement.node ("subroutine_dec").data
      (keywordLeaf kw.value :: rt :: nm :: symbolLeaf lp.value ::
        (pl.toList ++ [symbolLeaf rp.value, body])), q7)

/-- Parser::parse_parameter_list: a non-type, non-identifier peek yields
None without consuming anything. -/
def parseParameterList :
    Nat → List Token → Option (Option TreeElement × List Token)
  | 0, _ => none
  | fuel + 1, q => do
    let t ← ppeek q
    if (t.value = ("int").data ∨ t.value = ("char").data ∨
        t.value = ("boolean").data) ∨ t.token = TokenType.Identifier then do
      let (kids, q1) ← parseParamLoop fuel q
      pure (some (TreeElement.node ("parameter_list").data kids), q1)
    else pure (none, q)

/-- The parameter loop: type leaf, name, then a consumed separator that is
never recorded; a non-comma separator ends the list, while after a comma
the following token is recorded as a symbol leaf. -/
def parseParamLoop : Nat → List Token → Option (List TreeElement × List Token)
  | 0, _ => none
  | fuel + 1, q => do
    let (ty, q1) ← pnext q
    let (vn, q2) ← parseVarName q1
    let (c, q3) ← pnext q2
    if c.value = (",").data then do
      let (s, q4) ← pnext q3
      let (kids, q5) ← parseParamLoop fuel q4
      pure (TreeElement.leaf ("type").data ty.value :: vn ::
        symbolLeaf s.value :: kids, q5)
    else
      pure ([TreeElement.leaf ("type").data ty.value, vn], q3)

/-- Parser::parse_subroutine_body. -/
def parseSubroutineBody : Nat → List Token → Option (TreeElement × List Token)
  | 0, _ => none
  | fuel + 1, q => do
    let (ob, q1) ← pnext q
    let (vars, q2) ← parseBodyVarLoop fuel q1
    let (st, q3) ← parseStatements fuel q2
    let (cb, q4) ← pnext q3
    pure (TreeElement.node ("subroutine_body").data
      (symbolLeaf ob.value :: (vars ++ st.toList ++ [symbolLeaf cb.value])), q4)

/-- The var-declaration loop in parse_subroutine_body. -/
def parseBodyVarLoop : Nat → List Token → Option (List TreeElement × List Token)
  | 0, _ => none
  | fuel + 1, q => do
    let t ← ppeek q
    if t.value = ("var").data then do
      let (e, q1) ← parseVarDec fuel q
      let (es, q2) ← parseBodyVarLoop fuel q1
      pure (e :: es, q2)
    else pure ([], q)

/-- Parser::parse_var_dec. -/
def parseVarDec : Nat → List Token → Option (TreeElement × List Token)
  | 0, _ => none
  | fuel + 1, q => do
    let (kw, q1) ← pnext q
    let (ty, q2) ← parseType q1
    let (vn, q3) ← parseVarName q2
    let (kids, q4) ← parseVarDecNames fuel q3
    pure (TreeElement.node ("var_dec").data
      (keywordLeaf kw.value :: ty :: vn :: kids), q4)

/-- The comma loop of parse_var_dec: a peeked semicolon is consumed and
recorded and stops; otherwise the comma is recorded and another name
parsed. -/
def parseVarDecNames : Nat → List Token → Option (List TreeElement × List Token)
  | 0, _ => none
  | fuel + 1, q => do
    let t ← ppeek q
    if t.value = (";").data then do
      let (s, q1) ← pnext q
      pure ([symbolLeaf s.value], q1)
    else do
      let (s, q1) ← pnext q
      let (vn, q2) ← parseVarName q1
      let (kids, q3) ← parseVarDecNames fuel q2
      pure (symbolLeaf s.value :: vn :: kids, q3)

/-- Parser::parse_statements: None (without consuming) when the peeked
token opens no statement. -/
def parseStatements :
    Nat → List Token → Option (Option TreeElement × List Token)
  | 0, _ => none
  | fuel + 1, q => do
    let t ← ppeek q
    if isStatementKw t.value then do
      let (kids, q1) ← parseStatementsLoop fuel q
      pure (some (TreeElement.node ("statements").data kids), q1)
    else pure (none, q)

/-- The statement loop inside parse_statements. -/
def parseStatementsLoop : Nat → List Token → Option (List TreeElement × List Token)
  | 0, _ => none
  | fuel + 1, q => do
    let t ← ppeek q
    if isStatementKw t.value then do
      let (e, q1) ← parseStatement fuel q
      let (es, q2) ← parseStatementsLoop fuel q1
      pure (e :: es, q2)
    else pure ([], q)

/-- Parser::parse_statement: dispatch on the peeked token text; anything
else panics ("An error has occured"). -/
def parseStatement : Nat → List Token → Option (TreeElement × List Token)
  | 0, _ => none
  | fuel + 1, q => do
    let t ← ppeek q
    if t.value = ("let").data then parseLetStatement fuel q
    else if t.value = ("if").data then parseIfStatement fuel q
    else if t.value = ("while").data then parseWhileStatement fuel q
    else if t.value = ("do").data then parseDoStatement fuel q
    else if t.value = ("return").data then parseReturnStatement fuel q
    else none

/-- Parser::parse_let_statement. -/
def parseLetStatement : Nat → List Token → Option (TreeElement × List Token)
  | 0, _ => none
  | fuel + 1, q => do
    let (kw, q1) ← pnext q
    let (vn, q2) ← parseVarName q1
    let t ← ppeek q2
    let (idx, q3) ←
      if t.value = ("[").data then do
        let (ob, qa) ← pnext q2
        let (ex, qb) ← parseExpression fuel qa
        let (cb, qc) ← pnext qb
        pure ([symbolLeaf ob.value, ex, symbolLeaf cb.value], qc)
      else pure (([] : List TreeElement), q2)
    let (eqs, q4) ← pnext q3
    let (rhs, q5) ← parseExpression fuel q4
    let (sc, q6) ← pnext q5
    pure (TreeElement.node ("let_statement").data
      (keywordLeaf kw.value :: vn ::
        (idx ++ [symbolLeaf eqs.value, rhs, symbolLeaf sc.value])), q6)

/-- Parser::parse_if_statement. -/
def parseIfStatement : Nat → List Token → Option (TreeElement × List Token)
  | 0, _ => none
  | fuel + 1, q => do
    let (kw, q1) ← pnext q
    let (lp, q2) ← pnext q1
    let (cond, q3) ← parseExpression fuel q2
    let (rp, q4) ← pnext q3
    let (ob, q5) ← pnext q4
    let (st, q6) ← parseStatements fuel q5
    let (cb, q7) ← pnext q6
    let t ← ppeek q7
    let (els, q8) ←
      if t.value = ("else").data then do
        let (ek, qa) ← pnext q7
        let (eob, qb) ← pnext qa
        let (est, qc) ← parseStatements fuel qb
        let (ecb, qd) ← pnext qc
        pure (keywordLeaf ek.value :: symbolLeaf eob.value ::
          (est.toList ++ [symbolLeaf ecb.value]), qd)
      else pure (([] : List TreeElement), q7)
    pure (TreeElement.node ("if_statement").data
      (keywordLeaf kw.value :: symbolLeaf lp.value :: cond ::
        symbolLeaf rp.value :: symbolLeaf ob.value ::
        (st.toList ++ [symbolLeaf cb.value] ++ els)), q8)

/-- Parser::parse_while_statement. -/
def parseWhileStatement : Nat → List Token → Option (TreeElement × List Token)
  | 0, _ => none
  | fuel + 1, q => do
    let (kw, q1) ← pnext q
    let (lp, q2) ← pnext q1
    let (cond, q3) ← parseExpression fuel q2
    let (rp, q4) ← pnext q3
    let (ob, q5) ← pnext q4
    let (st, q6) ← parseStatements fuel q5
    let (cb, q7) ← pnext q6
    pure (TreeElement.node ("while_statement").data
      (keywordLeaf kw.value :: symbolLeaf lp.value :: cond ::
        symbolLeaf rp.value :: symbolLeaf ob.value ::
        (st.toList ++ [symbolLeaf cb.value])), q7)

/-- Parser::parse_do_statement. -/
def parseDoStatement : Nat → List Token → Option (TreeElement × List Token)
  | 0, _ => none
  | fuel + 1, q => do
    let (kw, q1) ← pnext q
    let (call, q2) ← parseSubroutineCall fuel q1
    let (sc, q3) ← pnext q2
    pure (TreeElement.node ("do_statement").data
      [keywordLeaf kw.value, call, symbolLeaf sc.value], q3)

/-- Parser::parse_return_statement. -/
def parseReturnStatement : Nat → List Token → Option (TreeElement × List Token)
  | 0, _ => none
  | fuel + 1, q => do
    let (kw, q1) ← pnext q
    let t ← ppeek q1
    let (ex, q2) ←
      if t.value = (";").data then pure (([] : List TreeElement), q1)
      else do
        let (e, qa) ← parseExpression fuel q1
        pure ([e], qa)
    let (sc, q3) ← pnext q2
    pure (TreeElement.node ("return_statement").data
      (keywordLeaf kw.value :: (ex ++ [symbolLeaf sc.value])), q3)

/-- Parser::parse_subroutine_call: one token consumed, the next peeked;
only the qualified ("." ) branch re-inserts the consumed token at the
front before re-dispatching; the bare branch drops it and parses the next
token as the subroutine name. -/
def parseSubroutineCall : Nat → List Token → Option (TreeElement × List Token)
  | 0, _ => none
  | fuel + 1, q => do
    let (focl, q1) ← pnext q
    let t ← ppeek q1
    if t.value = (".").data then do
      let (cn, qa) ← parseClassName (focl :: q1)
      let (dot, qb) ← pnext qa
      let (sn, qc) ← parseSubroutineName qb
      parseSubroutineCallTail fuel [cn, symbolLeaf dot.value, sn] qc
    else do
      let (sn, qa) ← parseSubroutineName q1
      parseSubroutineCallTail fuel [sn] qa

/-- The shared tail of parse_subroutine_call from the opening
parenthesis on. -/
def parseSubroutineCallTail :
    Nat → List TreeElement → List Token → Option (TreeElement × List Token)
  | 0, _, _ => none
  | fuel + 1, kids, q => do
    let (lp, q1) ← pnext q
    let t ← ppeek q1
    let (args, q2) ←
      if t.value = (")").data then pure (([] : List TreeElement), q1)
      else do
        let (el, qa) ← parseExpressionList fuel q1
        pure ([el], qa)
    let (rp, q3) ← pnext q2
    pure (TreeElement.node ("subroutine_call").data
      (kids ++ symbolLeaf lp.value :: (args ++ [symbolLeaf rp.value])), q3)

/-- Parser::parse_expression_list. -/
def parseExpressionList : Nat → List Token → Option (TreeElement × List Token)
  | 0, _ => none
  | fuel + 1, q => do
    let (kids, q1) ← parseExpressionListLoop fuel q
    pure (TreeElement.node ("expression_list").data kids, q1)

/-- The expression/comma loop of parse_expression_list (commas are
recorded). -/
def parseExpressionListLoop :
    Nat → List Token → Option (List TreeElement × List Token)
  | 0, _ => none
  | fuel + 1, q => do
    let (e, q1) ← parseExpression fuel q
    let t ← ppeek q1
    if t.value = (",").data then do
      let (c, q2) ← pnext q1
      let (kids, q3) ← parseExpressionListLoop fuel q2
      pure (e :: symbolLeaf c.value :: kids, q3)
    else pure ([e], q1)

/-- Parser::parse_expression: a term, then operator/term pairs. -/
def parseExpression : Nat → List Token → Option (TreeElement × List Token)
  | 0, _ => none
  | fuel + 1, q => do
    let (t1, q1) ← parseTerm fuel q
    let (kids, q2) ← parseExpressionOps fuel q1
    pure (TreeElement.node ("expression").data (t1 :: kids), q2)

/-- The operator/term loop of parse_expression. -/
def parseExpressionOps : Nat → List Token → Option (List TreeElement × List Token)
  | 0, _ => none
  | fuel + 1, q => do
    let t ← ppeek q
    if isBinaryOp t.value then do
      let (opn, q1) ← parseOp q
      let (tm, q2) ← parseTerm fuel q1
      let (kids, q3) ← parseExpressionOps fuel q2
      pure (opn :: tm :: kids, q3)
    else pure ([], q)

/-- Parser::parse_term, including the consume/peek/re-insert
disambiguation between array access, subroutine call and bare variable. -/
def parseTerm : Nat → List Token → Option (TreeElement × List Token)
  | 0, _ => none
  | fuel + 1, q => do
    let t ← ppeek q
    if t.token = TokenType.IntegerConstant then do
      let (c, q1) ← parseIntegerConstant q
      pure (TreeElement.node ("term").data [c], q1)
    else if t.token = TokenType.StringConstant then do
      let (c, q1) ← parseStringConstant q
      pure (TreeElement.node ("term").data [c], q1)
    else if t.value = ("true").data ∨ t.value = ("false").data ∨
        t.value = ("null").data ∨ t.value = ("this").data then do
      let (c, q1) ← parseKeywordConstant q
      pure (TreeElement.node ("term").data [c], q1)
    else if t.value = ("(").data then do
      let (ob, q1) ← pnext q
      let (ex, q2) ← parseExpression fuel q1
      let (cb, q3) ← pnext q2
      pure (TreeElement.node ("term").data
        [symbolLeaf ob.value, ex, symbolLeaf cb.value], q3)
    else if t.value = ("-").data ∨ t.value = ("~").data then do
      let (u, q1) ← parseUnaryOp q
      let (tm, q2) ← parseTerm fuel q1
      pure (TreeElement.node ("term").data [u, tm], q2)
    else do
      let (v, q1) ← pnext q
      let b ← ppeek q1
      if b.value = ("[").data then do
        let (ob, q2) ← pnext q1
        let (ex, q3) ← parseExpression fuel q2
        let (cb, q4) ← pnext q3
        pure (TreeElement.node ("term").data
          [identifierLeaf v.value, symbolLeaf ob.value, ex, symbolLeaf cb.value], q4)
      else if b.value = ("(").data ∨ b.value = (".").data then do
        let (sc, q2) ← parseSubroutineCall fuel (v :: q1)
        pure (TreeElement.node ("term").data [sc], q2)
      else do
        let (vn, q2) ← parseVarName (v :: q1)
        pure (TreeElement.node ("term").data [vn], q2)

end

/-- Parser::parse: parse_class wrapped in a Tree (the leftover queue is
never examined). -/
def parseTokens (fuel : Nat) (q : List Token) : Option (Tree × List Token) :=
  (parseClass fuel q).map (fun p => (⟨p.1⟩, p.2))

/-- vm_from_tokens (src/main.rs): the rendered output text for one file's
token list. -/
def vmFromTokens (fuel : Nat) (toks : List Token) : Option (List Char) :=
  (parseTokens fuel toks).map (fun p => p.1.toXml)

/-- The per-file pipeline of src/main.rs: tokens_for_file, then
vm_from_tokens. -/
def pipelineOutput (fuel : Nat) (content : List Char) : Option (List Char) := do
  let toks ← tokensForFile fuel content
  vmFromTokens fuel toks

/-! ### Auxiliary notions for the tokenizer theorems -/

/-- Every character is a single UTF-8 byte. -/
@[reducible]
def allAscii (s : List Char) : Prop := ∀ c ∈ s, c.toNat < 128

/-- Junk: a concatenation of whitespace characters and line comments —
exactly the material Tokenizer::next discards between tokens. -/
inductive Junk : List Char → Prop where
  | nil : Junk []
  | ws : ∀ c j, isRustWS c = true → Junk j → Junk (c :: j)
  | comment : ∀ u j, (∀ c ∈ u, c ≠ '\n') → Junk j →
      Junk ('/' :: '/' :: (u ++ j))

/-- The tokenizer's trace decomposition: the input text is junk, then the
first token's text, and so on, recursively; at EndOfFile the remaining
unconsumed text follows the final junk. -/
inductive Reconstructs : List Char → List Token → List Char → Prop where
  | eof : ∀ j rest, Junk j → Reconstructs (j ++ rest) [] rest
  | tok : ∀ j tk s2 toks rest, Junk j → Reconstructs s2 toks rest →
      Reconstructs (j ++ (tk.value ++ s2)) (tk :: toks) rest

/-- Cleanliness of a parse tree: names are tag-safe and leaf values hold
no newline — what the parser in fact always builds, since node names are
fixed literals and leaf values are token texts. -/
inductive CleanT : TreeElement → Prop where
  | leaf : ∀ n v, nameOKB n = true → '\n' ∉ v → CleanT (TreeElement.leaf n v)
  | node : ∀ n cs, nameOKB n = true → (∀ c ∈ cs, CleanT c) →
      CleanT (TreeElement.node n cs)

/-- All token values in a queue are newline-free. -/
def CleanQ (q : List Token) : Prop := ∀ t ∈ q, '\n' ∉ t.value

/-- A parser result whose tree is clean and whose leftover queue stays
clean. -/
def CleanRes (r : Option (TreeElement × List Token)) : Prop :=
  ∀ e q2, r = some (e, q2) → CleanT e ∧ CleanQ q2

def CleanResL (r : Option (List TreeElement × List Token)) : Prop :=
  ∀ es q2, r = some (es, q2) → (∀ x ∈ es, CleanT x) ∧ CleanQ q2

def CleanResO (r : Option (Option TreeElement × List Token)) : Prop :=
  ∀ o q2, r = some (o, q2) → (∀ x, o = some x → CleanT x) ∧ CleanQ q2

/-- One line of rendered XML: an indent, then an open tag, a close tag, or
a one-line leaf element. -/
def IsXmlLine (l : List Char) : Prop :=
  ∃ i n v, nameOKB n = true ∧ '\n' ∉ v ∧
    (l = indentStr i ++ '<' :: (n ++ ['>']) ∨
     l = indentStr i ++ '<' :: '/' :: (n ++ ['>']) ∨
     l = indentStr i ++ '<' :: (n ++ '>' :: (v ++ '<' :: '/' :: (n ++ ['>']))))

/-- A text that is a concatenation of newline-terminated XML lines. -/
inductive XmlText : List Char → Prop where
  | nil : XmlText []
  | cons : ∀ l rest, IsXmlLine l → '\n' ∉ l → XmlText rest →
      XmlText (l ++ '\n' :: rest)

mutual

/-- Size measure for parse trees, used to recurse through the nested
children lists. -/
def treeSize : TreeElement → Nat
  | TreeElement.leaf _ _ => 1
  | TreeElement.node _ cs => 1 + treeListSize cs

def treeListSize : List TreeElement → Nat
  | [] => 0
  | e :: es => treeSize e + treeListSize es

end

/-! ### Supporting lemmas about the tokenizer -/

theorem junk_append {a b : List Char} (ha : Junk a) (hb : Junk b) :
    Junk (a ++ b) := by
  induction ha with
  | nil => simpa using hb
  | ws c j hc _ ih => exact Junk.ws c _ hc ih
  | comment u j hu _ ih =>
    have h2 := Junk.comment u _ hu ih
    simpa [List.append_assoc] using h2

theorem junk_of_ws {j : List Char} (h : ∀ c ∈ j, isRustWS c = true) :
    Junk j := by
  induction j with
  | nil => exact Junk.nil
  | cons c j ih =>
    exact Junk.ws c j (h c (by simp)) (ih (fun x hx => h x (by simp [hx])))

theorem commentMatch_some {x m : List Char} (h : commentMatch x = some m) :
    ∃ u w, m = '/' :: '/' :: u ∧ (∀ c ∈ u, c ≠ '\n') ∧ x = m ++ w := by
  cases x with
  | nil => simp [commentMatch] at h
  | cons c1 x1 =>
    cases x1 with
    | nil => simp [commentMatch] at h
    | cons c2 rest =>
      by_cases hc : c1 = '/' ∧ c2 = '/'
      · rw [commentMatch, if_pos hc] at h
        obtain ⟨rfl, rfl⟩ := hc
        have hm2 : m = '/' :: '/' :: rest.takeWhile (fun c => c ≠ '\n') :=
          (Option.some.inj h).symm
        subst hm2
        refine ⟨rest.takeWhile (fun c => c ≠ '\n'),
          rest.dropWhile (fun c => c ≠ '\n'), rfl, ?_, ?_⟩
        · intro c hc2
          have h3 := List.mem_takeWhile_imp hc2
          simpa using h3
        · simp [List.takeWhile_append_dropWhile]
      · rw [commentMatch, if_neg hc] at h
        exact absurd h (by simp)

theorem utf8Len_ascii {v : List Char} (h : ∀ c ∈ v, c.toNat < 128) :
    utf8Len v = v.length := by
  induction v with
  | nil => rfl
  | cons c v ih =>
    have hc : utf8SizeC c = 1 := by
      unfold utf8SizeC
      rw [if_pos]
      exact Nat.lt_of_lt_of_le (h c (by simp)) (by norm_num)
    simp only [utf8Len, List.map_cons, List.sum_cons, List.length_cons] at *
    rw [hc, ih (fun x hx => h x (by simp [hx]))]
    omega

theorem stripJunk_decomp :
    ∀ fuel s t, allAscii s → stripJunk fuel s = some t →
      (∃ j, Junk j ∧ s = j ++ t) ∧ allAscii t := by
  intro fuel
  induction fuel with
  | zero => intro s t _ h; simp [stripJunk] at h
  | succ fuel ih =>
    intro s t hs h
    have hsplit : s.takeWhile isRustWS ++ s.dropWhile isRustWS = s :=
      List.takeWhile_append_dropWhile ..
    have hjw : Junk (s.takeWhile isRustWS) :=
      junk_of_ws (fun c hc => List.mem_takeWhile_imp hc)
    have ht1ascii : allAscii (s.dropWhile isRustWS) :=
      fun c hc => hs c ((List.dropWhile_sublist _).subset hc)
    rw [stripJunk] at h
    cases hcm : commentMatch (s.dropWhile isRustWS) with
    | none =>
      rw [hcm] at h
      have ht : s.dropWhile isRustWS = t := by simpa using h
      subst ht
      exact ⟨⟨s.takeWhile isRustWS, hjw, hsplit.symm⟩, ht1ascii⟩
    | some m =>
      obtain ⟨u, w, hm, hu, hx⟩ := commentMatch_some hcm
      have hmascii : ∀ c ∈ m, c.toNat < 128 := by
        intro c hc
        exact ht1ascii c (by rw [hx]; exact List.mem_append_left _ hc)
      have hlen : utf8Len m = m.length := utf8Len_ascii hmascii
      have hle : utf8Len m ≤ (s.dropWhile isRustWS).length := by
        rw [hlen, hx]
        simp
      have hrf : removeFirst (utf8Len m) (s.dropWhile isRustWS) = some w := by
        unfold removeFirst
        rw [if_pos hle, hlen, hx, List.drop_left]
      simp only [hcm, hrf] at h
      have hwascii : allAscii w := by
        intro c hc
        exact ht1ascii c (by rw [hx]; exact List.mem_append_right _ hc)
      obtain ⟨⟨j2, hj2, hw⟩, hta⟩ := ih w t hwascii h
      refine ⟨⟨s.takeWhile isRustWS ++ ('/' :: '/' :: (u ++ j2)), ?_, ?_⟩, hta⟩
      · exact junk_append hjw (Junk.comment u j2 hu hj2)
      · conv_lhs => rw [← hsplit, hx, hm, hw]
        simp [List.append_assoc]

theorem matchToken_shape {t : List Char} {ty : TokenType} {v : List Char}
    (h : matchToken t = some (ty, v)) :
    v <+: t ∧ v ≠ [] ∧ ty ≠ TokenType.EndOfFile := by
  unfold matchToken at h
  cases hk : keywordMatch t with
  | some k =>
    rw [hk] at h
    obtain ⟨h1, h2⟩ := Prod.mk.inj (Option.some.inj h)
    subst h1; subst h2
    unfold keywordMatch at hk
    refine ⟨?_, ?_, by simp⟩
    · have hp : k.isPrefixOf t = true := by simpa using List.find?_some hk
      exact List.isPrefixOf_iff_prefix.mp hp
    · have hmem : k ∈ keywordList := List.mem_of_find?_eq_some hk
      have hne : ∀ k2 ∈ keywordList, k2 ≠ ([] : List Char) := by decide
      exact hne k hmem
  | none =>
    rw [hk] at h
    cases t with
    | nil => simp [symbolMatch, integerMatch, stringMatch, identMatch] at h
    | cons c rest =>
      by_cases hsy : c ∈ symbolChars
      · rw [symbolMatch, if_pos hsy] at h
        obtain ⟨h1, h2⟩ := Prod.mk.inj (Option.some.inj h)
        subst h1; subst h2
        exact ⟨⟨rest, rfl⟩, by simp, by simp⟩
      · rw [symbolMatch, if_neg hsy] at h
        cases hig : integerMatch (c :: rest) with
        | some ds =>
          rw [hig] at h
          obtain ⟨h1, h2⟩ := Prod.mk.inj (Option.some.inj h)
          subst h1; subst h2
          unfold integerMatch at hig
          by_cases hni : (((c :: rest).takeWhile isDigitC).take 5).isEmpty
          · rw [if_pos hni] at hig; cases hig
          · rw [if_neg hni] at hig
            have hds : ((c :: rest).takeWhile isDigitC).take 5 = ds :=
              Option.some.inj hig
            subst hds
            refine ⟨(List.take_prefix ..).trans (List.takeWhile_prefix _), ?_, by simp⟩
            simpa [List.isEmpty_iff] using hni
        | none =>
          rw [hig] at h
          cases hst : stringMatch (c :: rest) with
          | some sv =>
            rw [hst] at h
            obtain ⟨h1, h2⟩ := Prod.mk.inj (Option.some.inj h)
            subst h1; subst h2
            rw [stringMatch] at hst
            by_cases hq : c = '"'
            · rw [if_pos hq] at hst
              cases hlq : lastQuoteIdx (rest.takeWhile (fun d => d ≠ '\n')) with
              | some i =>
                rw [hlq] at hst
                have hv : '"' :: rest.take (i + 1) = sv := Option.some.inj hst
                subst hv
                subst hq
                obtain ⟨w, hw⟩ := List.take_prefix (i + 1) rest
                exact ⟨⟨w, by simp [hw]⟩, by simp, by simp⟩
              | none => rw [hlq] at hst; cases hst
            · rw [if_neg hq] at hst; cases hst
          | none =>
            rw [hst] at h
            cases hid : identMatch (c :: rest) with
            | some iv =>
              rw [hid] at h
              obtain ⟨h1, h2⟩ := Prod.mk.inj (Option.some.inj h)
              subst h1; subst h2
              rw [identMatch] at hid
              by_cases hisv : isIdentStart c = true
              · rw [if_pos hisv] at hid
                have hv : c :: rest.takeWhile isIdentCont = iv :=
                  Option.some.inj hid
                subst hv
                obtain ⟨w, hw⟩ := List.takeWhile_prefix (l := rest) isIdentCont
                exact ⟨⟨w, by simp [hw]⟩, by simp, by simp⟩
              · rw [if_neg hisv] at hid; cases hid
            | none =>
              rw [hid] at h
              cases h


theorem notWS_of_range {c : Char} (h1 : 34 ≤ c.toNat) (h2 : c.toNat ≤ 126) :
    isRustWS c = false := by
  simp only [isRustWS, Bool.or_eq_false_iff, Bool.and_eq_false_iff,
    decide_eq_false_iff_not, Nat.not_le, beq_eq_false_iff_ne, ne_eq]
  omega

theorem isDigitC_range {c : Char} (h : isDigitC c = true) :
    48 ≤ c.toNat ∧ c.toNat ≤ 57 := by
  simp only [isDigitC, Bool.and_eq_true, decide_eq_true_eq, Char.le_def] at h
  exact ⟨h.1, h.2⟩

theorem isIdentStart_range {c : Char} (h : isIdentStart c = true) :
    34 ≤ c.toNat ∧ c.toNat ≤ 126 ∧ c.toNat ≠ 47 := by
  simp only [isIdentStart, isAsciiAlpha, Bool.or_eq_true, decide_eq_true_eq,
    Bool.and_eq_true, Char.le_def] at h
  rcases h with h | h | h
  · subst h; exact ⟨by decide, by decide, by decide⟩
  · obtain ⟨h1, h2⟩ := h
    have h1n : 97 ≤ c.toNat := h1
    have h2n : c.toNat ≤ 122 := h2
    omega
  · obtain ⟨h1, h2⟩ := h
    have h1n : 65 ≤ c.toNat := h1
    have h2n : c.toNat ≤ 90 := h2
    omega

/-- The head character of any matched token value: never whitespace, and a
slash only as the single-character division symbol. -/
theorem matchToken_value_head {t : List Char} {ty : TokenType} {v : List Char}
    (h : matchToken t = some (ty, v)) :
    ∃ c v2, v = c :: v2 ∧ isRustWS c = false ∧ (c ≠ '/' ∨ v2 = []) := by
  unfold matchToken at h
  cases hk : keywordMatch t with
  | some k =>
    rw [hk] at h
    obtain ⟨h1, h2⟩ := Prod.mk.inj (Option.some.inj h)
    subst h1; subst h2
    unfold keywordMatch at hk
    have hmem : k ∈ keywordList := List.mem_of_find?_eq_some hk
    have hb : ∀ k2 ∈ keywordList,
        (!isRustWS (k2.headD ' ') && !(k2.headD ' ' == '/')) = true := by decide
    have hne : ∀ k2 ∈ keywordList, k2 ≠ ([] : List Char) := by decide
    have hbk := hb k hmem
    cases k with
    | nil => exact absurd rfl (hne [] hmem)
    | cons c v2 =>
      simp only [List.headD_cons, Bool.and_eq_true] at hbk
      obtain ⟨hb1, hb2⟩ := hbk
      refine ⟨c, v2, rfl, ?_, Or.inl ?_⟩
      · cases hws : isRustWS c
        · rfl
        · rw [hws] at hb1; simp at hb1
      · intro hq
        rw [hq] at hb2
        simp at hb2
  | none =>
    rw [hk] at h
    cases t with
    | nil => simp [symbolMatch, integerMatch, stringMatch, identMatch] at h
    | cons c rest =>
      by_cases hsy : c ∈ symbolChars
      · rw [symbolMatch, if_pos hsy] at h
        obtain ⟨h1, h2⟩ := Prod.mk.inj (Option.some.inj h)
        subst h1; subst h2
        have hws : isRustWS c = false := by
          have hall : symbolChars.all (fun d => !isRustWS d) = true := by decide
          have hc := List.all_eq_true.mp hall c hsy
          simpa using hc
        exact ⟨c, [], rfl, hws, Or.inr rfl⟩
      · rw [symbolMatch, if_neg hsy] at h
        cases hig : integerMatch (c :: rest) with
        | some ds =>
          rw [hig] at h
          obtain ⟨h1, h2⟩ := Prod.mk.inj (Option.some.inj h)
          subst h1; subst h2
          unfold integerMatch at hig
          by_cases hni : (((c :: rest).takeWhile isDigitC).take 5).isEmpty
          · rw [if_pos hni] at hig; cases hig
          · rw [if_neg hni] at hig
            have hds : ((c :: rest).takeWhile isDigitC).take 5 = ds :=
              Option.some.inj hig
            cases hd : ds with
            | nil =>
              rw [hd] at hds
              rw [hds] at hni
              simp at hni
            | cons d ds2 =>
              have hdm : d ∈ (c :: rest).takeWhile isDigitC := by
                apply List.take_subset 5
                rw [hds, hd]
                simp
              have hdig := List.mem_takeWhile_imp hdm
              obtain ⟨hr1, hr2⟩ := isDigitC_range hdig
              refine ⟨d, ds2, rfl, notWS_of_range (by omega) (by omega), Or.inl ?_⟩
              intro hq
              rw [hq] at hr1
              simp at hr1
        | none =>
          rw [hig] at h
          cases hst : stringMatch (c :: rest) with
          | some sv =>
            rw [hst] at h
            obtain ⟨h1, h2⟩ := Prod.mk.inj (Option.some.inj h)
            subst h1; subst h2
            rw [stringMatch] at hst
            by_cases hq : c = '"'
            · rw [if_pos hq] at hst
              cases hlq : lastQuoteIdx (rest.takeWhile (fun d => d ≠ '\n')) with
              | some i =>
                rw [hlq] at hst
                have hv : '"' :: rest.take (i + 1) = sv := Option.some.inj hst
                exact ⟨'"', rest.take (i + 1), hv.symm, by decide, Or.inl (by decide)⟩
              | none => rw [hlq] at hst; cases hst
            · rw [if_neg hq] at hst; cases hst
          | none =>
            rw [hst] at h
            cases hid : identMatch (c :: rest) with
            | some iv =>
              rw [hid] at h
              obtain ⟨h1, h2⟩ := Prod.mk.inj (Option.some.inj h)
              subst h1; subst h2
              rw [identMatch] at hid
              by_cases hisv : isIdentStart c = true
              · rw [if_pos hisv] at hid
                have hv : c :: rest.takeWhile isIdentCont = iv :=
                  Option.some.inj hid
                obtain ⟨hr1, hr2, hr3⟩ := isIdentStart_range hisv
                refine ⟨c, rest.takeWhile isIdentCont, hv.symm,
                  notWS_of_range hr1 hr2, Or.inl ?_⟩
                intro hq
                rw [hq] at hr3
                simp at hr3
              · rw [if_neg hisv] at hid; cases hid
            | none =>
              rw [hid] at h
              cases h

/-- One tokenizer step on ASCII text, decomposed: the consumed prefix is
junk followed (for a real token) by exactly the token's text. -/
theorem nextTok_decomp {fuel : Nat} {s : List Char} {tok : Token}
    {rest : List Char} (hs : allAscii s)
    (h : nextTok fuel s = some (tok, rest)) :
    allAscii rest ∧
    (tok.token = TokenType.EndOfFile → tok.value = [] ∧ ∃ j, Junk j ∧ s = j ++ rest) ∧
    (tok.token ≠ TokenType.EndOfFile → ∃ j, Junk j ∧ s = j ++ (tok.value ++ rest)) := by
  unfold nextTok at h
  cases hsj : stripJunk fuel s with
  | none => rw [hsj] at h; cases h
  | some t =>
    obtain ⟨⟨j, hj, hsj2⟩, hta⟩ := stripJunk_decomp fuel s t hs hsj
    rw [hsj] at h
    cases hmt : matchToken t with
    | none =>
      simp only [hmt] at h
      obtain ⟨h1, h2⟩ := Prod.mk.inj (Option.some.inj h)
      subst h2
      refine ⟨hta, ?_, ?_⟩
      · intro _; exact ⟨by rw [← h1], j, hj, hsj2⟩
      · intro hne; exact absurd (by rw [← h1]) hne
    | some p =>
      obtain ⟨ty, v⟩ := p
      obtain ⟨hpre, hvne, htyne⟩ := matchToken_shape hmt
      obtain ⟨w, hw⟩ := hpre
      have hva : ∀ c ∈ v, c.toNat < 128 := by
        intro c hc
        exact hta c (by rw [← hw]; exact List.mem_append_left _ hc)
      have hlen : utf8Len v = v.length := utf8Len_ascii hva
      have hle : utf8Len v ≤ t.length := by rw [hlen, ← hw]; simp
      have hrf : removeFirst (utf8Len v) t = some w := by
        unfold removeFirst
        rw [if_pos hle, hlen, ← hw, List.drop_left]
      simp only [hmt, hrf] at h
      obtain ⟨h1, h2⟩ := Prod.mk.inj (Option.some.inj h)
      subst h2
      refine ⟨?_, ?_, ?_⟩
      · intro c hc
        exact hta c (by rw [← hw]; exact List.mem_append_right _ hc)
      · intro hEOF
        rw [← h1] at hEOF
        exact absurd hEOF htyne
      · intro _
        exact ⟨j, hj, by rw [hsj2, ← hw, ← h1]⟩

/-- On ASCII text with enough fuel, junk stripping always succeeds. -/
theorem stripJunk_ascii_total :
    ∀ fuel s, allAscii s → s.length < fuel →
      ∃ t, stripJunk fuel s = some t ∧ allAscii t ∧ t.length ≤ s.length := by
  intro fuel
  induction fuel with
  | zero => intro s _ h; exact absurd h (Nat.not_lt_zero _)
  | succ fuel ih =>
    intro s hs hlt
    have ht1ascii : allAscii (s.dropWhile isRustWS) :=
      fun c hc => hs c ((List.dropWhile_sublist _).subset hc)
    have hlen1 : (s.dropWhile isRustWS).length ≤ s.length :=
      (List.dropWhile_sublist _).length_le
    rw [stripJunk]
    cases hcm : commentMatch (s.dropWhile isRustWS) with
    | none => exact ⟨_, by simp, ht1ascii, hlen1⟩
    | some m =>
      obtain ⟨u, w, hm, hu, hx⟩ := commentMatch_some hcm
      have hmascii : ∀ c ∈ m, c.toNat < 128 := by
        intro c hc
        exact ht1ascii c (by rw [hx]; exact List.mem_append_left _ hc)
      have hmlen : utf8Len m = m.length := utf8Len_ascii hmascii
      have hle : utf8Len m ≤ (s.dropWhile isRustWS).length := by
        rw [hmlen, hx]; simp
      have hrf : removeFirst (utf8Len m) (s.dropWhile isRustWS) = some w := by
        unfold removeFirst
        rw [if_pos hle, hmlen, hx, List.drop_left]
      have hwascii : allAscii w := by
        intro c hc
        exact ht1ascii c (by rw [hx]; exact List.mem_append_right _ hc)
      have hwlen : w.length + m.length = (s.dropWhile isRustWS).length := by
        rw [hx]; simp [Nat.add_comm]
      have hmlen2 : 2 ≤ m.length := by rw [hm]; simp
      have hwlt : w.length < fuel := by omega
      obtain ⟨t, hst, hta, htl⟩ := ih w hwascii hwlt
      exact ⟨t, by simp [hrf, hst], hta, by omega⟩

/-- No quote at all means lastQuoteIdx finds nothing. -/
theorem lastQuoteIdx_none {l : List Char} (h : lastQuoteIdx l = none) :
    '"' ∉ l := by
  induction l with
  | nil => simp
  | cons c cs ih =>
    rw [lastQuoteIdx] at h
    cases hcs : lastQuoteIdx cs with
    | some i => rw [hcs] at h; cases h
    | none =>
      rw [hcs] at h
      by_cases hc : c = '"'
      · rw [if_pos hc] at h; cases h
      · rw [if_neg hc] at h
        simp only [List.mem_cons, not_or]
        exact ⟨fun hq => hc hq.symm, ih hcs⟩

/-- lastQuoteIdx points at the final quote: everything after it is
quote-free. -/
theorem lastQuoteIdx_decomp {l : List Char} {i : Nat}
    (h : lastQuoteIdx l = some i) :
    ∃ u2 w2, l = u2 ++ '"' :: w2 ∧ u2.length = i ∧ '"' ∉ w2 := by
  induction l generalizing i with
  | nil => simp [lastQuoteIdx] at h
  | cons c cs ih =>
    rw [lastQuoteIdx] at h
    cases hcs : lastQuoteIdx cs with
    | some i2 =>
      simp only [hcs] at h
      have hi : i2 + 1 = i := Option.some.inj h
      obtain ⟨u2, w2, hcs2, hlen, hw⟩ := ih hcs
      exact ⟨c :: u2, w2, by simp [hcs2], by simp [hlen, ← hi], hw⟩
    | none =>
      simp only [hcs] at h
      by_cases hc : c = '"'
      · rw [if_pos hc] at h
        have hi : 0 = i := Option.some.inj h
        exact ⟨[], cs, by simp [hc], by simp [← hi], lastQuoteIdx_none hcs⟩
      · rw [if_neg hc] at h; cases h

theorem takeWhile_append_all {p : Char → Bool} {a : List Char}
    (b : List Char) (h : ∀ c ∈ a, p c = true) :
    (a ++ b).takeWhile p = a ++ b.takeWhile p := by
  induction a with
  | nil => simp
  | cons c a2 ih =>
    rw [List.cons_append, List.takeWhile_cons_of_pos (h c (by simp)),
      ih (fun x hx => h x (by simp [hx]))]
    simp

theorem dropWhile_head_false {p : Char → Bool} {l r : List Char} {c : Char}
    (h : l.dropWhile p = c :: r) : p c = false := by
  induction l with
  | nil => simp at h
  | cons d l2 ih =>
    rw [List.dropWhile_cons] at h
    by_cases hd : p d
    · rw [if_pos hd] at h; exact ih h
    · rw [if_neg hd] at h
      obtain ⟨h1, _⟩ := List.cons.inj h
      rw [← h1]
      simpa using hd

theorem stringMatch_no_newline {c : Char} {rest v : List Char}
    (h : stringMatch (c :: rest) = some v) : '\n' ∉ v := by
  rw [stringMatch] at h
  by_cases hq : c = '"'
  · rw [if_pos hq] at h
    cases hlq : lastQuoteIdx (rest.takeWhile (fun d => d ≠ '\n')) with
    | none => rw [hlq] at h; cases h
    | some i =>
      rw [hlq] at h
      have hv : '"' :: rest.take (i + 1) = v := Option.some.inj h
      obtain ⟨u2, w2, hldec, hu2len, _⟩ := lastQuoteIdx_decomp hlq
      have hilen : i + 1 ≤ (rest.takeWhile (fun d => d ≠ '\n')).length := by
        rw [hldec, ← hu2len]; simp
      have htake : rest.take (i + 1) =
          (rest.takeWhile (fun d => d ≠ '\n')).take (i + 1) := by
        conv_lhs => rw [← List.takeWhile_append_dropWhile
          (fun d => decide (d ≠ '\n')) rest]
        rw [List.take_append_of_le_length hilen]
      rw [← hv]
      intro hmem
      rcases List.mem_cons.mp hmem with hmem | hmem
      · cases hmem
      · rw [htake] at hmem
        have h3 := List.mem_takeWhile_imp (List.take_subset _ _ hmem)
        simp at h3
  · rw [if_neg hq] at h; cases h

theorem matchToken_no_newline {t : List Char} {ty : TokenType} {v : List Char}
    (h : matchToken t = some (ty, v)) : '\n' ∉ v := by
  unfold matchToken at h
  cases hk : keywordMatch t with
  | some k =>
    rw [hk] at h
    obtain ⟨h1, h2⟩ := Prod.mk.inj (Option.some.inj h)
    subst h2
    unfold keywordMatch at hk
    have hmem : k ∈ keywordList := List.mem_of_find?_eq_some hk
    have hb : ∀ k2 ∈ keywordList, ('\n' : Char) ∉ k2 := by decide
    exact hb k hmem
  | none =>
    rw [hk] at h
    cases t with
    | nil => simp [symbolMatch, integerMatch, stringMatch, identMatch] at h
    | cons c rest =>
      by_cases hsy : c ∈ symbolChars
      · rw [symbolMatch, if_pos hsy] at h
        obtain ⟨h1, h2⟩ := Prod.mk.inj (Option.some.inj h)
        subst h2
        have hb : ∀ d ∈ symbolChars, d ≠ '\n' := by decide
        intro hmem
        rcases List.mem_cons.mp hmem with hmem | hmem
        · exact hb c hsy hmem.symm
        · simp at hmem
      · rw [symbolMatch, if_neg hsy] at h
        cases hig : integerMatch (c :: rest) with
        | some ds =>
          rw [hig] at h
          obtain ⟨h1, h2⟩ := Prod.mk.inj (Option.some.inj h)
          subst h2
          unfold integerMatch at hig
          by_cases hni : (((c :: rest).takeWhile isDigitC).take 5).isEmpty
          · rw [if_pos hni] at hig; cases hig
          · rw [if_neg hni] at hig
            have hds : ((c :: rest).takeWhile isDigitC).take 5 = ds :=
              Option.some.inj hig
            rw [← hds]
            intro hmem
            have h3 := List.mem_takeWhile_imp (List.take_subset _ _ hmem)
            exact absurd h3 (by decide)
        | none =>
          rw [hig] at h
          cases hst : stringMatch (c :: rest) with
          | some sv =>
            rw [hst] at h
            obtain ⟨h1, h2⟩ := Prod.mk.inj (Option.some.inj h)
            subst h2
            exact stringMatch_no_newline hst
          | none =>
            rw [hst] at h
            cases hid : identMatch (c :: rest) with
            | some iv =>
              rw [hid] at h
              obtain ⟨h1, h2⟩ := Prod.mk.inj (Option.some.inj h)
              subst h2
              rw [identMatch] at hid
              by_cases hisv : isIdentStart c = true
              · rw [if_pos hisv] at hid
                rw [← Option.some.inj hid]
                intro hmem
                rcases List.mem_cons.mp hmem with hmem | hmem
                · rw [← hmem] at hisv
                  exact absurd hisv (by decide)
                · have h3 := List.mem_takeWhile_imp hmem
                  exact absurd h3 (by decide)
              · rw [if_neg hisv] at hid; cases hid
            | none =>
              rw [hid] at h
              cases h

theorem nextTok_no_newline {fuel : Nat} {s : List Char} {tok : Token}
    {rest : List Char} (h : nextTok fuel s = some (tok, rest)) :
    '\n' ∉ tok.value := by
  unfold nextTok at h
  cases hsj : stripJunk fuel s with
  | none => rw [hsj] at h; cases h
  | some t =>
    rw [hsj] at h
    cases hmt : matchToken t with
    | none =>
      simp only [hmt] at h
      obtain ⟨h1, h2⟩ := Prod.mk.inj (Option.some.inj h)
      rw [← h1]
      simp
    | some p =>
      obtain ⟨ty, v⟩ := p
      cases hrf : removeFirst (utf8Len v) t with
      | none => simp only [hmt, hrf] at h; cases h
      | some w =>
        simp only [hmt, hrf] at h
        obtain ⟨h1, h2⟩ := Prod.mk.inj (Option.some.inj h)
        rw [← h1]
        exact matchToken_no_newline hmt

theorem tokensRun_clean :
    ∀ fuel s toks rest, tokensRun fuel s = some (toks, rest) →
      CleanQ toks := by
  intro fuel
  induction fuel with
  | zero => intro s toks rest h; simp [tokensRun] at h
  | succ fuel ih =>
    intro s toks rest h
    rw [tokensRun] at h
    cases hnt : nextTok (fuel + 1) s with
    | none => simp only [hnt] at h; cases h
    | some p =>
      obtain ⟨tok, rest0⟩ := p
      simp only [hnt] at h
      by_cases he : tok.token = TokenType.EndOfFile
      · rw [if_pos he] at h
        obtain ⟨h1, h2⟩ := Prod.mk.inj (Option.some.inj h)
        rw [← h1]
        intro t ht
        simp at ht
      · rw [if_neg he] at h
        cases htr : tokensRun fuel rest0 with
        | none => simp only [htr] at h; cases h
        | some q =>
          obtain ⟨toks2, r⟩ := q
          simp only [htr] at h
          obtain ⟨h1, h2⟩ := Prod.mk.inj (Option.some.inj h)
          rw [← h1]
          intro t ht
          rcases List.mem_cons.mp ht with ht | ht
          · rw [ht]; exact nextTok_no_newline hnt
          · exact ih rest0 toks2 r htr t ht

/-! ### Supporting lemmas about XML rendering -/

theorem indentStr_spaces : ∀ i, ∀ c ∈ indentStr i, c = ' ' := by
  intro i
  induction i with
  | zero => simp [indentStr]
  | succ i ih =>
    intro c hc
    rw [indentStr] at hc
    rcases List.mem_cons.mp hc with hc | hc
    · exact hc
    · rcases List.mem_cons.mp hc with hc | hc
      · exact hc
      · exact ih c hc

theorem nameOKB_spec {n : List Char} (h : nameOKB n = true) :
    ∀ c ∈ n, c ≠ '\n' ∧ c ≠ '<' ∧ c ≠ '>' ∧ c ≠ '/' := by
  intro c hc
  simp only [nameOKB, Bool.and_eq_true, List.all_eq_true] at h
  have h2 := h.2 c hc
  simp only [Bool.and_eq_true, decide_eq_true_eq] at h2
  exact ⟨h2.1.1.1, h2.1.1.2, h2.1.2, h2.2⟩

theorem no_nl_open {i : Nat} {n : List Char} (hn : nameOKB n = true) :
    '\n' ∉ indentStr i ++ '<' :: (n ++ ['>']) := by
  intro hmem
  rcases List.mem_append.mp hmem with hmem | hmem
  · have := indentStr_spaces i _ hmem
    simp at this
  · rcases List.mem_cons.mp hmem with hmem | hmem
    · simp at hmem
    · rcases List.mem_append.mp hmem with hmem | hmem
      · exact (nameOKB_spec hn _ hmem).1 rfl
      · simp at hmem

theorem no_nl_close {i : Nat} {n : List Char} (hn : nameOKB n = true) :
    '\n' ∉ indentStr i ++ '<' :: '/' :: (n ++ ['>']) := by
  intro hmem
  rcases List.mem_append.mp hmem with hmem | hmem
  · have := indentStr_spaces i _ hmem
    simp at this
  · rcases List.mem_cons.mp hmem with hmem | hmem
    · simp at hmem
    · rcases List.mem_cons.mp hmem with hmem | hmem
      · simp at hmem
      · rcases List.mem_append.mp hmem with hmem | hmem
        · exact (nameOKB_spec hn _ hmem).1 rfl
        · simp at hmem

theorem no_nl_leaf {i : Nat} {n v : List Char} (hn : nameOKB n = true)
    (hv : '\n' ∉ v) :
    '\n' ∉ indentStr i ++ '<' :: (n ++ '>' :: (v ++ '<' :: '/' :: (n ++ ['>']))) := by
  intro hmem
  rcases List.mem_append.mp hmem with hmem | hmem
  · have := indentStr_spaces i _ hmem
    simp at this
  · rcases List.mem_cons.mp hmem with hmem | hmem
    · simp at hmem
    · rcases List.mem_append.mp hmem with hmem | hmem
      · exact (nameOKB_spec hn _ hmem).1 rfl
      · rcases List.mem_cons.mp hmem with hmem | hmem
        · simp at hmem
        · rcases List.mem_append.mp hmem with hmem | hmem
          · exact hv hmem
          · rcases List.mem_cons.mp hmem with hmem | hmem
            · simp at hmem
            · rcases List.mem_cons.mp hmem with hmem | hmem
              · simp at hmem
              · rcases List.mem_append.mp hmem with hmem | hmem
                · exact (nameOKB_spec hn _ hmem).1 rfl
                · simp at hmem

theorem xmlText_single {l : List Char} (h1 : IsXmlLine l) (h2 : '\n' ∉ l) :
    XmlText (l ++ '\n' :: []) :=
  XmlText.cons l [] h1 h2 XmlText.nil

theorem xmlText_append {a b : List Char} (ha : XmlText a) (hb : XmlText b) :
    XmlText (a ++ b) := by
  induction ha with
  | nil => simpa using hb
  | cons l rest h1 h2 _ ih =>
    have h3 := XmlText.cons l (rest ++ b) h1 h2 ih
    simpa [List.append_assoc] using h3

theorem splitLinesAux_append {l rest : List Char} :
    ∀ acc, '\n' ∉ l →
      splitLinesAux (l ++ '\n' :: rest) acc =
        (acc.reverse ++ l) :: splitLinesAux rest [] := by
  induction l with
  | nil =>
    intro acc _
    simp [splitLinesAux]
  | cons c l2 ih =>
    intro acc hl
    have hc : ¬ (c = '\n') := by
      intro hq
      exact hl (by simp [hq])
    rw [List.cons_append, splitLinesAux, if_neg hc,
      ih (c :: acc) (fun hm => hl (by simp [hm]))]
    simp

theorem xmlText_lines {s : List Char} (h : XmlText s) :
    ∀ l ∈ splitLines s, IsXmlLine l := by
  induction h with
  | nil => simp [splitLines, splitLinesAux]
  | cons l rest h1 h2 _ ih =>
    intro l2 hl2
    rw [splitLines, splitLinesAux_append [] h2] at hl2
    rcases List.mem_cons.mp hl2 with hl2 | hl2
    · rw [hl2]; simpa using h1
    · exact ih l2 hl2

theorem treeSize_pos : ∀ e, 1 ≤ treeSize e := by
  intro e
  cases e with
  | leaf n v => simp [treeSize]
  | node n cs => simp [treeSize]

/-- A clean tree renders, at any indent, to a concatenation of
newline-terminated XML lines. -/
theorem cleanT_xmlText_bounded :
    ∀ N, (∀ e, treeSize e ≤ N → CleanT e → ∀ i, XmlText (toXmlIndent e i)) ∧
      (∀ cs : List TreeElement, treeListSize cs ≤ N →
        (∀ c ∈ cs, CleanT c) → ∀ i, XmlText (toXmlChildren cs i)) := by
  intro N
  induction N with
  | zero =>
    constructor
    · intro e hsz _ _
      have := treeSize_pos e
      omega
    · intro cs hsz hcs i
      cases cs with
      | nil => exact XmlText.nil
      | cons e es =>
        have h1 := treeSize_pos e
        rw [treeListSize] at hsz
        omega
  | succ N ihN =>
    have He : ∀ e, treeSize e ≤ N + 1 → CleanT e → ∀ i,
        XmlText (toXmlIndent e i) := by
      intro e hsz hc i
      cases hc with
      | leaf n v hn hv =>
        rw [toXmlIndent]
        exact xmlText_single
          ⟨i, n, v, hn, hv, Or.inr (Or.inr rfl)⟩ (no_nl_leaf hn hv)
      | node n cs hn hcs =>
        rw [toXmlIndent]
        have hsz2 : treeListSize cs ≤ N := by
          rw [treeSize] at hsz
          omega
        refine xmlText_append
          (xmlText_single ⟨i, n, [], hn, by simp, Or.inl rfl⟩ (no_nl_open hn))
          (xmlText_append (ihN.2 cs hsz2 hcs (i + 1))
            (xmlText_single ⟨i, n, [], hn, by simp, Or.inr (Or.inl rfl)⟩
              (no_nl_close hn)))
    refine ⟨He, ?_⟩
    intro cs hsz hcs i
    cases cs with
    | nil => exact XmlText.nil
    | cons e es =>
      rw [treeListSize] at hsz
      have h1 := treeSize_pos e
      rw [toXmlChildren]
      refine xmlText_append
        (He e (by omega) (hcs e (by simp)) i)
        (ihN.2 es (by omega) (fun c hc => hcs c (by simp [hc])) i)

/-! ### Supporting lemmas: the parser only builds clean trees -/

theorem pnext_clean {q : List Token} {t : Token} {q2 : List Token}
    (hq : CleanQ q) (h : pnext q = some (t, q2)) :
    '\n' ∉ t.value ∧ CleanQ q2 := by
  cases q with
  | nil => cases h
  | cons t0 q0 =>
    obtain ⟨h1, h2⟩ := Prod.mk.inj (Option.some.inj h)
    constructor
    · rw [← h1]; exact hq t0 (by simp)
    · rw [← h2]; intro x hx; exact hq x (by simp [hx])

theorem cleanQ_cons {t : Token} {q : List Token} (ht : '\n' ∉ t.value)
    (hq : CleanQ q) : CleanQ (t :: q) := by
  intro x hx
  rcases List.mem_cons.mp hx with hx | hx
  · rw [hx]; exact ht
  · exact hq x hx

theorem cleanT_keywordLeaf {v : List Char} (hv : '\n' ∉ v) :
    CleanT (keywordLeaf v) := CleanT.leaf _ _ (by rfl) hv

theorem cleanT_symbolLeaf {v : List Char} (hv : '\n' ∉ v) :
    CleanT (symbolLeaf v) := CleanT.leaf _ _ (by rfl) hv

theorem cleanT_identifierLeaf {v : List Char} (hv : '\n' ∉ v) :
    CleanT (identifierLeaf v) := CleanT.leaf _ _ (by rfl) hv

theorem cleanT_typeLeaf {v : List Char} (hv : '\n' ∉ v) :
    CleanT (TreeElement.leaf ("type").data v) := CleanT.leaf _ _ (by rfl) hv

theorem cleanT_node1 {nn : List Char} (hnn : nameOKB nn = true)
    {c : TreeElement} (hc : CleanT c) : CleanT (TreeElement.node nn [c]) :=
  CleanT.node _ _ hnn (by
    intro x hx
    simp only [List.mem_singleton] at hx
    rw [hx]
    exact hc)

theorem parseVarName_clean {q : List Token} (hq : CleanQ q) :
    CleanRes (parseVarName q) := by
  intro e q2 h
  cases hq0 : pnext q with
  | none => rw [parseVarName, hq0] at h; cases h
  | some p =>
    obtain ⟨t, q1⟩ := p
    rw [parseVarName, hq0] at h
    simp only [Option.pure_def, Option.bind_eq_bind, Option.some_bind,
      Option.some.injEq, Prod.mk.injEq] at h
    obtain ⟨he, hq2⟩ := h
    subst he; subst hq2
    obtain ⟨ht, hq1⟩ := pnext_clean hq hq0
    exact ⟨cleanT_node1 (by rfl) (cleanT_identifierLeaf ht), hq1⟩

theorem parseSubroutineName_clean {q : List Token} (hq : CleanQ q) :
    CleanRes (parseSubroutineName q) := by
  intro e q2 h
  cases hq0 : pnext q with
  | none => rw [parseSubroutineName, hq0] at h; cases h
  | some p =>
    obtain ⟨t, q1⟩ := p
    rw [parseSubroutineName, hq0] at h
    simp only [Option.pure_def, Option.bind_eq_bind, Option.some_bind,
      Option.some.injEq, Prod.mk.injEq] at h
    obtain ⟨he, hq2⟩ := h
    subst he; subst hq2
    obtain ⟨ht, hq1⟩ := pnext_clean hq hq0
    exact ⟨cleanT_node1 (by rfl) (cleanT_identifierLeaf ht), hq1⟩

theorem parseClassName_clean {q : List Token} (hq : CleanQ q) :
    CleanRes (parseClassName q) := by
  intro e q2 h
  cases hq0 : pnext q with
  | none => rw [parseClassName, hq0] at h; cases h
  | some p =>
    obtain ⟨t, q1⟩ := p
    rw [parseClassName, hq0] at h
    simp only [Option.pure_def, Option.bind_eq_bind, Option.some_bind,
      Option.some.injEq, Prod.mk.injEq] at h
    obtain ⟨he, hq2⟩ := h
    subst he; subst hq2
    obtain ⟨ht, hq1⟩ := pnext_clean hq hq0
    exact ⟨cleanT_node1 (by rfl) (cleanT_identifierLeaf ht), hq1⟩

theorem parseType_clean {q : List Token} (hq : CleanQ q) :
    CleanRes (parseType q) := by
  intro e q2 h
  cases hpk : ppeek q with
  | none => rw [parseType, hpk] at h; cases h
  | some t =>
    rw [parseType, hpk] at h
    simp only [Option.pure_def, Option.bind_eq_bind, Option.some_bind] at h
    by_cases hc : t.value = ("int").data ∨ t.value = ("char").data ∨
        t.value = ("boolean").data
    · rw [if_pos hc] at h
      cases hq0 : pnext q with
      | none => rw [hq0] at h; cases h
      | some p =>
        obtain ⟨t1, q1⟩ := p
        rw [hq0] at h
        simp only [Option.some_bind, Option.some.injEq, Prod.mk.injEq] at h
        obtain ⟨he, hq2⟩ := h
        subst he; subst hq2
        obtain ⟨ht, hq1⟩ := pnext_clean hq hq0
        exact ⟨cleanT_node1 (by rfl) (cleanT_keywordLeaf ht), hq1⟩
    · rw [if_neg hc] at h
      cases hcn : parseClassName q with
      | none => rw [hcn] at h; cases h
      | some p =>
        obtain ⟨cn, q1⟩ := p
        rw [hcn] at h
        simp only [Option.some_bind, Option.some.injEq, Prod.mk.injEq] at h
        obtain ⟨he, hq2⟩ := h
        subst he; subst hq2
        obtain ⟨hcnc, hq1⟩ := parseClassName_clean hq cn q1 hcn
        exact ⟨cleanT_node1 (by rfl) hcnc, hq1⟩

theorem parseOp_clean {q : List Token} (hq : CleanQ q) :
    CleanRes (parseOp q) := by
  intro e q2 h
  cases hq0 : pnext q with
  | none => rw [parseOp, hq0] at h; cases h
  | some p =>
    obtain ⟨t, q1⟩ := p
    rw [parseOp, hq0] at h
    simp only [Option.pure_def, Option.bind_eq_bind, Option.some_bind,
      Option.some.injEq, Prod.mk.injEq] at h
    obtain ⟨he, hq2⟩ := h
    subst he; subst hq2
    obtain ⟨ht, hq1⟩ := pnext_clean hq hq0
    exact ⟨cleanT_node1 (by rfl) (cleanT_symbolLeaf ht), hq1⟩

theorem parseUnaryOp_clean {q : List Token} (hq : CleanQ q) :
    CleanRes (parseUnaryOp q) := by
  intro e q2 h
  cases hq0 : pnext q with
  | none => rw [parseUnaryOp, hq0] at h; cases h
  | some p =>
    obtain ⟨t, q1⟩ := p
    rw [parseUnaryOp, hq0] at h
    simp only [Option.pure_def, Option.bind_eq_bind, Option.some_bind,
      Option.some.injEq, Prod.mk.injEq] at h
    obtain ⟨he, hq2⟩ := h
    subst he; subst hq2
    obtain ⟨ht, hq1⟩ := pnext_clean hq hq0
    exact ⟨CleanT.leaf _ _ (by rfl) ht, hq1⟩

theorem parseIntegerConstant_clean {q : List Token} (hq : CleanQ q) :
    CleanRes (parseIntegerConstant q) := by
  intro e q2 h
  cases hq0 : pnext q with
  | none => rw [parseIntegerConstant, hq0] at h; cases h
  | some p =>
    obtain ⟨t, q1⟩ := p
    rw [parseIntegerConstant, hq0] at h
    simp only [Option.pure_def, Option.bind_eq_bind, Option.some_bind,
      Option.some.injEq, Prod.mk.injEq] at h
    obtain ⟨he, hq2⟩ := h
    subst he; subst hq2
    obtain ⟨ht, hq1⟩ := pnext_clean hq hq0
    exact ⟨cleanT_node1 (by rfl) (CleanT.leaf _ _ (by rfl) ht), hq1⟩

theorem parseStringConstant_clean {q : List Token} (hq : CleanQ q) :
    CleanRes (parseStringConstant q) := by
  intro e q2 h
  cases hq0 : pnext q with
  | none => rw [parseStringConstant, hq0] at h; cases h
  | some p =>
    obtain ⟨t, q1⟩ := p
    rw [parseStringConstant, hq0] at h
    simp only [Option.pure_def, Option.bind_eq_bind, Option.some_bind,
      Option.some.injEq, Prod.mk.injEq] at h
    obtain ⟨he, hq2⟩ := h
    subst he; subst hq2
    obtain ⟨ht, hq1⟩ := pnext_clean hq hq0
    exact ⟨cleanT_node1 (by rfl) (CleanT.leaf _ _ (by rfl) ht), hq1⟩

theorem parseKeywordConstant_clean {q : List Token} (hq : CleanQ q) :
    CleanRes (parseKeywordConstant q) := by
  intro e q2 h
  cases hq0 : pnext q with
  | none => rw [parseKeywordConstant, hq0] at h; cases h
  | some p =>
    obtain ⟨t, q1⟩ := p
    rw [parseKeywordConstant, hq0] at h
    simp only [Option.pure_def, Option.bind_eq_bind, Option.some_bind,
      Option.some.injEq, Prod.mk.injEq] at h
    obtain ⟨he, hq2⟩ := h
    subst he; subst hq2
    obtain ⟨ht, hq1⟩ := pnext_clean hq hq0
    exact ⟨cleanT_node1 (by rfl) (CleanT.leaf _ _ (by rfl) ht), hq1⟩

/-- Peeling one bind off an Option computation known to succeed. -/
theorem bind_some_elim {α β : Type} {x : Option α} {f : α → Option β} {b : β}
    (h : x.bind f = some b) : ∃ a, x = some a ∧ f a = some b := by
  cases x with
  | none => cases h
  | some a => exact ⟨a, rfl, h⟩

/-- The parser builds only clean trees from clean token queues and leaves
the queue clean: one statement per parser routine, proved together by
induction on the fuel. -/
theorem parser_clean : ∀ fuel : Nat,
    (∀ q, CleanQ q → CleanRes (parseClass fuel q)) ∧
    (∀ q, CleanQ q → CleanResL (parseClassVarLoop fuel q)) ∧
    (∀ q, CleanQ q → CleanResL (parseSubroutineLoop fuel q)) ∧
    (∀ q, CleanQ q → CleanRes (parseClassVarDec fuel q)) ∧
    (∀ q, CleanQ q → CleanResL (parseClassVarNames fuel q)) ∧
    (∀ q, CleanQ q → CleanRes (parseSubroutineDec fuel q)) ∧
    (∀ q, CleanQ q → CleanResO (parseParameterList fuel q)) ∧
    (∀ q, CleanQ q → CleanResL (parseParamLoop fuel q)) ∧
    (∀ q, CleanQ q → CleanRes (parseSubroutineBody fuel q)) ∧
    (∀ q, CleanQ q → CleanResL (parseBodyVarLoop fuel q)) ∧
    (∀ q, CleanQ q → CleanRes (parseVarDec fuel q)) ∧
    (∀ q, CleanQ q → CleanResL (parseVarDecNames fuel q)) ∧
    (∀ q, CleanQ q → CleanResO (parseStatements fuel q)) ∧
    (∀ q, CleanQ q → CleanResL (parseStatementsLoop fuel q)) ∧
    (∀ q, CleanQ q → CleanRes (parseStatement fuel q)) ∧
    (∀ q, CleanQ q → CleanRes (parseLetStatement fuel q)) ∧
    (∀ q, CleanQ q → CleanRes (parseIfStatement fuel q)) ∧
    (∀ q, CleanQ q → CleanRes (parseWhileStatement fuel q)) ∧
    (∀ q, CleanQ q → CleanRes (parseDoStatement fuel q)) ∧
    (∀ q, CleanQ q → CleanRes (parseReturnStatement fuel q)) ∧
    (∀ q, CleanQ q → CleanRes (parseSubroutineCall fuel q)) ∧
    (∀ kids q, (∀ x ∈ kids, CleanT x) → CleanQ q →
      CleanRes (parseSubroutineCallTail fuel kids q)) ∧
    (∀ q, CleanQ q → CleanRes (parseExpressionList fuel q)) ∧
    (∀ q, CleanQ q → CleanResL (parseExpressionListLoop fuel q)) ∧
    (∀ q, CleanQ q → CleanRes (parseExpression fuel q)) ∧
    (∀ q, CleanQ q → CleanResL (parseExpressionOps fuel q)) ∧
    (∀ q, CleanQ q → CleanRes (parseTerm fuel q)) := by
  intro fuel
  induction fuel with
  | zero =>
    refine ⟨?_, ?_, ?_, ?_, ?_, ?_, ?_, ?_, ?_, ?_, ?_, ?_, ?_, ?_, ?_, ?_,
      ?_, ?_, ?_, ?_, ?_, ?_, ?_, ?_, ?_, ?_, ?_⟩
    · intro q _ e q2 h; rw [parseClass] at h; cases h
    · intro q _ es q2 h; rw [parseClassVarLoop] at h; cases h
    · intro q _ es q2 h; rw [parseSubroutineLoop] at h; cases h
    · intro q _ e q2 h; rw [parseClassVarDec] at h; cases h
    · intro q _ es q2 h; rw [parseClassVarNames] at h; cases h
    · intro q _ e q2 h; rw [parseSubroutineDec] at h; cases h
    · intro q _ o q2 h; rw [parseParameterList] at h; cases h
    · intro q _ es q2 h; rw [parseParamLoop] at h; cases h
    · intro q _ e q2 h; rw [parseSubroutineBody] at h; cases h
    · intro q _ es q2 h; rw [parseBodyVarLoop] at h; cases h
    · intro q _ e q2 h; rw [parseVarDec] at h; cases h
    · intro q _ es q2 h; rw [parseVarDecNames] at h; cases h
    · intro q _ o q2 h; rw [parseStatements] at h; cases h
    · intro q _ es q2 h; rw [parseStatementsLoop] at h; cases h
    · intro q _ e q2 h; rw [parseStatement] at h; cases h
    · intro q _ e q2 h; rw [parseLetStatement] at h; cases h
    · intro q _ e q2 h; rw [parseIfStatement] at h; cases h
    · intro q _ e q2 h; rw [parseWhileStatement] at h; cases h
    · intro q _ e q2 h; rw [parseDoStatement] at h; cases h
    · intro q _ e q2 h; rw [parseReturnStatement] at h; cases h
    · intro q _ e q2 h; rw [parseSubroutineCall] at h; cases h
    · intro kids q _ _ e q2 h; rw [parseSubroutineCallTail] at h; cases h
    · intro q _ e q2 h; rw [parseExpressionList] at h; cases h
    · intro q _ es q2 h; rw [parseExpressionListLoop] at h; cases h
    · intro q _ e q2 h; rw [parseExpression] at h; cases h
    · intro q _ es q2 h; rw [parseExpressionOps] at h; cases h
    · intro q _ e q2 h; rw [parseTerm] at h; cases h
  | succ fuel ih =>
    obtain ⟨ihClass, ihCVL, ihSL, ihCVD, ihCVN, ihSD, ihPL, ihPLoop, ihSB,
      ihBVL, ihVD, ihVDN, ihSt, ihStL, ihStmt, ihLet, ihIf, ihWhile, ihDo,
      ihRet, ihCall, ihCallT, ihEL, ihELL, ihExp, ihExpO, ihTerm⟩ := ih
    refine ⟨?_, ?_, ?_, ?_, ?_, ?_, ?_, ?_, ?_, ?_, ?_, ?_, ?_, ?_, ?_, ?_,
      ?_, ?_, ?_, ?_, ?_, ?_, ?_, ?_, ?_, ?_, ?_⟩
    · -- parseClass
      intro q hq e q2 h
      rw [parseClass] at h
      simp only [Option.pure_def, Option.bind_eq_bind, Option.bind_eq_some,
        Option.some.injEq, Prod.mk.injEq] at h
      obtain ⟨⟨t1, qa⟩, h1, ⟨t2, qb⟩, h2, ⟨t3, qc⟩, h3, ⟨vars, qd⟩, h4,
        ⟨subs, qe⟩, h5, ⟨t4, qf⟩, h6, he, hq2⟩ := h
      subst he; subst hq2
      obtain ⟨ht1, hqa⟩ := pnext_clean hq h1
      obtain ⟨ht2, hqb⟩ := pnext_clean hqa h2
      obtain ⟨ht3, hqc⟩ := pnext_clean hqb h3
      obtain ⟨hvars, hqd⟩ := ihCVL qc hqc vars qd h4
      obtain ⟨hsubs, hqe⟩ := ihSL qd hqd subs qe h5
      obtain ⟨ht4, hqf⟩ := pnext_clean hqe h6
      refine ⟨CleanT.node _ _ (by rfl) ?_, hqf⟩
      intro c hc
      simp only [List.mem_cons, List.mem_append, List.not_mem_nil,
        or_false] at hc
      rcases hc with rfl | rfl | rfl | (hc | hc) | rfl
      · exact cleanT_keywordLeaf ht1
      · exact cleanT_identifierLeaf ht2
      · exact cleanT_symbolLeaf ht3
      · exact hvars c hc
      · exact hsubs c hc
      · exact cleanT_symbolLeaf ht4
    · -- parseClassVarLoop
      intro q hq es q2 h
      rw [parseClassVarLoop] at h
      simp only [Option.pure_def, Option.bind_eq_bind, Option.bind_eq_some,
        Option.some.injEq, Prod.mk.injEq] at h
      obtain ⟨t, hpk, h⟩ := h
      by_cases hc : t.value = ("static").data ∨ t.value = ("field").data
      · rw [if_pos hc] at h
        simp only [Option.bind_eq_some, Option.some.injEq, Prod.mk.injEq] at h
        obtain ⟨⟨e1, qa⟩, h1, ⟨es2, qb⟩, h2, hes, hq2⟩ := h
        subst hes; subst hq2
        obtain ⟨he1, hqa⟩ := ihCVD q hq e1 qa h1
        obtain ⟨hes2, hqb⟩ := ihCVL qa hqa es2 qb h2
        refine ⟨?_, hqb⟩
        intro x hx
        rcases List.mem_cons.mp hx with rfl | hx
        · exact he1
        · exact hes2 x hx
      · rw [if_neg hc] at h
        simp only [Option.some.injEq, Prod.mk.injEq] at h
        obtain ⟨hes, hq2⟩ := h
        subst hes; subst hq2
        exact ⟨by intro x hx; simp at hx, hq⟩
    · -- parseSubroutineLoop
      intro q hq es q2 h
      rw [parseSubroutineLoop] at h
      simp only [Option.pure_def, Option.bind_eq_bind, Option.bind_eq_some,
        Option.some.injEq, Prod.mk.injEq] at h
      obtain ⟨t, hpk, h⟩ := h
      by_cases hc : t.value = ("constructor").data ∨ t.value = ("function").data ∨
          t.value = ("method").data
      · rw [if_pos hc] at h
        simp only [Option.bind_eq_some, Option.some.injEq, Prod.mk.injEq] at h
        obtain ⟨⟨e1, qa⟩, h1, ⟨es2, qb⟩, h2, hes, hq2⟩ := h
        subst hes; subst hq2
        obtain ⟨he1, hqa⟩ := ihSD q hq e1 qa h1
        obtain ⟨hes2, hqb⟩ := ihSL qa hqa es2 qb h2
        refine ⟨?_, hqb⟩
        intro x hx
        rcases List.mem_cons.mp hx with rfl | hx
        · exact he1
        · exact hes2 x hx
      · rw [if_neg hc] at h
        simp only [Option.some.injEq, Prod.mk.injEq] at h
        obtain ⟨hes, hq2⟩ := h
        subst hes; subst hq2
        exact ⟨by intro x hx; simp at hx, hq⟩
    · -- parseClassVarDec
      intro q hq e q2 h
      rw [parseClassVarDec] at h
      simp only [Option.pure_def, Option.bind_eq_bind, Option.bind_eq_some,
        Option.some.injEq, Prod.mk.injEq] at h
      obtain ⟨⟨kw, qa⟩, h1, ⟨ty, qb⟩, h2, ⟨kids, qc⟩, h3, he, hq2⟩ := h
      subst he; subst hq2
      obtain ⟨hkw, hqa⟩ := pnext_clean hq h1
      obtain ⟨hty, hqb⟩ := parseType_clean hqa ty qb h2
      obtain ⟨hkids, hqc⟩ := ihCVN qb hqb kids qc h3
      refine ⟨CleanT.node _ _ (by rfl) ?_, hqc⟩
      intro c hc
      rcases List.mem_cons.mp hc with rfl | hc
      · exact cleanT_keywordLeaf hkw
      · rcases List.mem_cons.mp hc with rfl | hc
        · exact hty
        · exact hkids c hc
    · -- parseClassVarNames
      intro q hq es q2 h
      rw [parseClassVarNames] at h
      simp only [Option.pure_def, Option.bind_eq_bind, Option.bind_eq_some,
        Option.some.injEq, Prod.mk.injEq] at h
      obtain ⟨⟨vn, qa⟩, h1, ⟨cs, qb⟩, h2, h⟩ := h
      obtain ⟨hvn, hqa⟩ := parseVarName_clean hq vn qa h1
      obtain ⟨hcs, hqb⟩ := pnext_clean hqa h2
      by_cases hc : cs.value = (";").data
      · rw [if_pos hc] at h
        simp only [Option.some.injEq, Prod.mk.injEq] at h
        obtain ⟨hes, hq2⟩ := h
        subst hes; subst hq2
        refine ⟨?_, hqb⟩
        intro x hx
        rcases List.mem_cons.mp hx with rfl | hx
        · exact hvn
        · rcases List.mem_cons.mp hx with rfl | hx
          · exact cleanT_symbolLeaf hcs
          · simp at hx
      · rw [if_neg hc] at h
        simp only [Option.bind_eq_some, Option.some.injEq, Prod.mk.injEq] at h
        obtain ⟨⟨kids, qc⟩, h3, hes, hq2⟩ := h
        subst hes; subst hq2
        obtain ⟨hkids, hqc⟩ := ihCVN qb hqb kids qc h3
        refine ⟨?_, hqc⟩
        intro x hx
        rcases List.mem_cons.mp hx with rfl | hx
        · exact hvn
        · rcases List.mem_cons.mp hx with rfl | hx
          · exact cleanT_symbolLeaf hcs
          · exact hkids x hx
    · -- parseSubroutineDec
      intro q hq e q2 h
      rw [parseSubroutineDec] at h
      simp only [Option.pure_def, Option.bind_eq_bind, Option.bind_eq_some,
        Option.some.injEq, Prod.mk.injEq] at h
      obtain ⟨⟨kw, qa⟩, h1, t, hpk, h⟩ := h
      obtain ⟨hkw, hqa⟩ := pnext_clean hq h1
      have hrest : ∃ rt qb, CleanT rt ∧ CleanQ qb ∧
          ((parseSubroutineName qb).bind fun y =>
            (pnext y.2).bind fun z =>
            (parseParameterList fuel z.2).bind fun w =>
            (pnext w.2).bind fun u =>
            (parseSubroutineBody fuel u.2).bind fun b =>
            some (TreeElement.node (("subroutine_dec").data)
              (keywordLeaf kw.value :: rt :: y.1 :: symbolLeaf z.1.value ::
                (w.1.toList ++ [symbolLeaf u.1.value, b.1])), b.2)) =
            some (e, q2) := by
        by_cases hv : t.value = ("void").data
        · rw [if_pos hv] at h
          simp only [Option.pure_def, Option.bind_eq_bind, Option.bind_eq_some,
            Option.some_bind, Option.some.injEq, Prod.mk.injEq] at h
          obtain ⟨⟨v1, qx⟩, hv1, h⟩ := h
          obtain ⟨hv1c, hqx⟩ := pnext_clean hqa hv1
          refine ⟨keywordLeaf v1.value, qx, cleanT_keywordLeaf hv1c, hqx, ?_⟩
          simp only [Option.pure_def, Option.bind_eq_bind, Option.bind_eq_some,
            Option.some.injEq, Prod.mk.injEq]
          exact h
        · rw [if_neg hv] at h
          simp only [Option.pure_def, Option.bind_eq_bind, Option.bind_eq_some,
            Option.some_bind, Option.some.injEq, Prod.mk.injEq] at h
          obtain ⟨⟨rt, qb⟩, h2, h⟩ := h
          obtain ⟨hrt, hqb⟩ := parseType_clean hqa rt qb h2
          refine ⟨rt, qb, hrt, hqb, ?_⟩
          simp only [Option.pure_def, Option.bind_eq_bind, Option.bind_eq_some,
            Option.some.injEq, Prod.mk.injEq]
          exact h
      obtain ⟨rt, qb, hrt, hqb, h⟩ := hrest
      simp only [Option.pure_def, Option.bind_eq_bind, Option.bind_eq_some,
        Option.some.injEq, Prod.mk.injEq] at h
      obtain ⟨⟨nm, qc⟩, h3, ⟨lp, qd⟩, h4, ⟨pl, qe⟩, h5, ⟨rp, qf⟩, h6,
        ⟨body, qg⟩, h7, he, hq2⟩ := h
      subst he; subst hq2
      obtain ⟨hnm, hqc⟩ := parseSubroutineName_clean hqb nm qc h3
      obtain ⟨hlp, hqd⟩ := pnext_clean hqc h4
      obtain ⟨hpl, hqe⟩ := ihPL qd hqd pl qe h5
      obtain ⟨hrp, hqf⟩ := pnext_clean hqe h6
      obtain ⟨hbody, hqg⟩ := ihSB qf hqf body qg h7
      refine ⟨CleanT.node _ _ (by rfl) ?_, hqg⟩
      intro c hc
      simp only [List.mem_cons, List.mem_append, List.not_mem_nil,
        or_false] at hc
      rcases hc with rfl | rfl | rfl | rfl | hc | rfl | rfl
      · exact cleanT_keywordLeaf hkw
      · exact hrt
      · exact hnm
      · exact cleanT_symbolLeaf hlp
      · cases hplv : pl with
        | none => rw [hplv] at hc; simp at hc
        | some x =>
          rw [hplv] at hc
          simp only [Option.toList_some, List.mem_singleton] at hc
          rw [hc]
          exact hpl x (by rw [hplv])
      · exact cleanT_symbolLeaf hrp
      · exact hbody
    · -- parseParameterList
      intro q hq o q2 h
      rw [parseParameterList] at h
      simp only [Option.pure_def, Option.bind_eq_bind, Option.bind_eq_some,
        Option.some.injEq, Prod.mk.injEq] at h
      obtain ⟨t, hpk, h⟩ := h
      by_cases hc : (t.value = ("int").data ∨ t.value = ("char").data ∨
          t.value = ("boolean").data) ∨ t.token = TokenType.Identifier
      · rw [if_pos hc] at h
        simp only [Option.bind_eq_some, Option.some.injEq, Prod.mk.injEq] at h
        obtain ⟨⟨kids, qa⟩, h1, ho, hq2⟩ := h
        subst ho; subst hq2
        obtain ⟨hkids, hqa⟩ := ihPLoop q hq kids qa h1
        refine ⟨?_, hqa⟩
        intro x hx
        have hx2 : TreeElement.node (("parameter_list").data) kids = x :=
          Option.some.inj hx
        rw [← hx2]
        exact CleanT.node _ _ (by rfl) hkids
      · rw [if_neg hc] at h
        simp only [Option.some.injEq, Prod.mk.injEq] at h
        obtain ⟨ho, hq2⟩ := h
        subst ho; subst hq2
        refine ⟨?_, hq⟩
        intro x hx
        cases hx
    · -- parseParamLoop
      intro q hq es q2 h
      rw [parseParamLoop] at h
      simp only [Option.pure_def, Option.bind_eq_bind, Option.bind_eq_some,
        Option.some.injEq, Prod.mk.injEq] at h
      obtain ⟨⟨ty, qa⟩, h1, ⟨vn, qb⟩, h2, ⟨c0, qc⟩, h3, h⟩ := h
      obtain ⟨hty, hqa⟩ := pnext_clean hq h1
      obtain ⟨hvn, hqb⟩ := parseVarName_clean hqa vn qb h2
      obtain ⟨hc0, hqc⟩ := pnext_clean hqb h3
      by_cases hc : c0.value = (",").data
      · rw [if_pos hc] at h
        simp only [Option.bind_eq_some, Option.some.injEq, Prod.mk.injEq] at h
        obtain ⟨⟨s, qd⟩, h4, ⟨kids, qe⟩, h5, hes, hq2⟩ := h
        subst hes; subst hq2
        obtain ⟨hs, hqd⟩ := pnext_clean hqc h4
        obtain ⟨hkids, hqe⟩ := ihPLoop qd hqd kids qe h5
        refine ⟨?_, hqe⟩
        intro x hx
        rcases List.mem_cons.mp hx with rfl | hx
        · exact cleanT_typeLeaf hty
        · rcases List.mem_cons.mp hx with rfl | hx
          · exact hvn
          · rcases List.mem_cons.mp hx with rfl | hx
            · exact cleanT_symbolLeaf hs
            · exact hkids x hx
      · rw [if_neg hc] at h
        simp only [Option.some.injEq, Prod.mk.injEq] at h
        obtain ⟨hes, hq2⟩ := h
        subst hes; subst hq2
        refine ⟨?_, hqc⟩
        intro x hx
        rcases List.mem_cons.mp hx with rfl | hx
        · exact cleanT_typeLeaf hty
        · rcases List.mem_cons.mp hx with rfl | hx
          · exact hvn
          · simp at hx
    · -- parseSubroutineBody
      intro q hq e q2 h
      rw [parseSubroutineBody] at h
      simp only [Option.pure_def, Option.bind_eq_bind, Option.bind_eq_some,
        Option.some.injEq, Prod.mk.injEq] at h
      obtain ⟨⟨ob, qa⟩, h1, ⟨vars, qb⟩, h2, ⟨st, qc⟩, h3, ⟨cb, qd⟩, h4,
        he, hq2⟩ := h
      subst he; subst hq2
      obtain ⟨hob, hqa⟩ := pnext_clean hq h1
      obtain ⟨hvars, hqb⟩ := ihBVL qa hqa vars qb h2
      obtain ⟨hst, hqc⟩ := ihSt qb hqb st qc h3
      obtain ⟨hcb, hqd⟩ := pnext_clean hqc h4
      refine ⟨CleanT.node _ _ (by rfl) ?_, hqd⟩
      intro c hc
      simp only [List.mem_cons, List.mem_append, List.not_mem_nil,
        or_false] at hc
      rcases hc with rfl | (hc | hc) | rfl
      · exact cleanT_symbolLeaf hob
      · exact hvars c hc
      · cases hstv : st with
        | none => rw [hstv] at hc; simp at hc
        | some x =>
          rw [hstv] at hc
          simp only [Option.toList_some, List.mem_singleton] at hc
          rw [hc]
          exact hst x (by rw [hstv])
      · exact cleanT_symbolLeaf hcb
    · -- parseBodyVarLoop
      intro q hq es q2 h
      rw [parseBodyVarLoop] at h
      simp only [Option.pure_def, Option.bind_eq_bind, Option.bind_eq_some,
        Option.some.injEq, Prod.mk.injEq] at h
      obtain ⟨t, hpk, h⟩ := h
      by_cases hc : t.value = ("var").data
      · rw [if_pos hc] at h
        simp only [Option.bind_eq_some, Option.some.injEq, Prod.mk.injEq] at h
        obtain ⟨⟨e1, qa⟩, h1, ⟨es2, qb⟩, h2, hes, hq2⟩ := h
        subst hes; subst hq2
        obtain ⟨he1, hqa⟩ := ihVD q hq e1 qa h1
        obtain ⟨hes2, hqb⟩ := ihBVL qa hqa es2 qb h2
        refine ⟨?_, hqb⟩
        intro x hx
        rcases List.mem_cons.mp hx with rfl | hx
        · exact he1
        · exact hes2 x hx
      · rw [if_neg hc] at h
        simp only [Option.some.injEq, Prod.mk.injEq] at h
        obtain ⟨hes, hq2⟩ := h
        subst hes; subst hq2
        exact ⟨by intro x hx; simp at hx, hq⟩
    · -- parseVarDec
      intro q hq e q2 h
      rw [parseVarDec] at h
      simp only [Option.pure_def, Option.bind_eq_bind, Option.bind_eq_some,
        Option.some.injEq, Prod.mk.injEq] at h
      obtain ⟨⟨kw, qa⟩, h1, ⟨ty, qb⟩, h2, ⟨vn, qc⟩, h3, ⟨kids, qd⟩, h4,
        he, hq2⟩ := h
      subst he; subst hq2
      obtain ⟨hkw, hqa⟩ := pnext_clean hq h1
      obtain ⟨hty, hqb⟩ := parseType_clean hqa ty qb h2
      obtain ⟨hvn, hqc⟩ := parseVarName_clean hqb vn qc h3
      obtain ⟨hkids, hqd⟩ := ihVDN qc hqc kids qd h4
      refine ⟨CleanT.node _ _ (by rfl) ?_, hqd⟩
      intro c hc
      rcases List.mem_cons.mp hc with rfl | hc
      · exact cleanT_keywordLeaf hkw
      · rcases List.mem_cons.mp hc with rfl | hc
        · exact hty
        · rcases List.mem_cons.mp hc with rfl | hc
          · exact hvn
          · exact hkids c hc
    · -- parseVarDecNames
      intro q hq es q2 h
      rw [parseVarDecNames] at h
      simp only [Option.pure_def, Option.bind_eq_bind, Option.bind_eq_some,
        Option.some.injEq, Prod.mk.injEq] at h
      obtain ⟨t, hpk, h⟩ := h
      by_cases hc : t.value = (";").data
      · rw [if_pos hc] at h
        simp only [Option.bind_eq_some, Option.some.injEq, Prod.mk.injEq] at h
        obtain ⟨⟨s, qa⟩, h1, hes, hq2⟩ := h
        subst hes; subst hq2
        obtain ⟨hs, hqa⟩ := pnext_clean hq h1
        refine ⟨?_, hqa⟩
        intro x hx
        rcases List.mem_cons.mp hx with rfl | hx
        · exact cleanT_symbolLeaf hs
        · simp at hx
      · rw [if_neg hc] at h
        simp only [Option.bind_eq_some, Option.some.injEq, Prod.mk.injEq] at h
        obtain ⟨⟨s, qa⟩, h1, ⟨vn, qb⟩, h2, ⟨kids, qc⟩, h3, hes, hq2⟩ := h
        subst hes; subst hq2
        obtain ⟨hs, hqa⟩ := pnext_clean hq h1
        obtain ⟨hvn, hqb⟩ := parseVarName_clean hqa vn qb h2
        obtain ⟨hkids, hqc⟩ := ihVDN qb hqb kids qc h3
        refine ⟨?_, hqc⟩
        intro x hx
        rcases List.mem_cons.mp hx with rfl | hx
        · exact cleanT_symbolLeaf hs
        · rcases List.mem_cons.mp hx with rfl | hx
          · exact hvn
          · exact hkids x hx
    · -- parseStatements
      intro q hq o q2 h
      rw [parseStatements] at h
      simp only [Option.pure_def, Option.bind_eq_bind, Option.bind_eq_some,
        Option.some.injEq, Prod.mk.injEq] at h
      obtain ⟨t, hpk, h⟩ := h
      by_cases hc : isStatementKw t.value = true
      · rw [if_pos hc] at h
        simp only [Option.bind_eq_some, Option.some.injEq, Prod.mk.injEq] at h
        obtain ⟨⟨kids, qa⟩, h1, ho, hq2⟩ := h
        subst ho; subst hq2
        obtain ⟨hkids, hqa⟩ := ihStL q hq kids qa h1
        refine ⟨?_, hqa⟩
        intro x hx
        have hx2 : TreeElement.node (("statements").data) kids = x :=
          Option.some.inj hx
        rw [← hx2]
        exact CleanT.node _ _ (by rfl) hkids
      · rw [if_neg hc] at h
        simp only [Option.some.injEq, Prod.mk.injEq] at h
        obtain ⟨ho, hq2⟩ := h
        subst ho; subst hq2
        refine ⟨?_, hq⟩
        intro x hx
        cases hx
    · -- parseStatementsLoop
      intro q hq es q2 h
      rw [parseStatementsLoop] at h
      simp only [Option.pure_def, Option.bind_eq_bind, Option.bind_eq_some,
        Option.some.injEq, Prod.mk.injEq] at h
      obtain ⟨t, hpk, h⟩ := h
      by_cases hc : isStatementKw t.value = true
      · rw [if_pos hc] at h
        simp only [Option.bind_eq_some, Option.some.injEq, Prod.mk.injEq] at h
        obtain ⟨⟨e1, qa⟩, h1, ⟨es2, qb⟩, h2, hes, hq2⟩ := h
        subst hes; subst hq2
        obtain ⟨he1, hqa⟩ := ihStmt q hq e1 qa h1
        obtain ⟨hes2, hqb⟩ := ihStL qa hqa es2 qb h2
        refine ⟨?_, hqb⟩
        intro x hx
        rcases List.mem_cons.mp hx with rfl | hx
        · exact he1
        · exact hes2 x hx
      · rw [if_neg hc] at h
        simp only [Option.some.injEq, Prod.mk.injEq] at h
        obtain ⟨hes, hq2⟩ := h
        subst hes; subst hq2
        exact ⟨by intro x hx; simp at hx, hq⟩
    · -- parseStatement
      intro q hq e q2 h
      rw [parseStatement] at h
      simp only [Option.pure_def, Option.bind_eq_bind, Option.bind_eq_some] at h
      obtain ⟨t, hpk, h⟩ := h
      by_cases h1 : t.value = ("let").data
      · rw [if_pos h1] at h; exact ihLet q hq e q2 h
      · rw [if_neg h1] at h
        by_cases h2 : t.value = ("if").data
        · rw [if_pos h2] at h; exact ihIf q hq e q2 h
        · rw [if_neg h2] at h
          by_cases h3 : t.value = ("while").data
          · rw [if_pos h3] at h; exact ihWhile q hq e q2 h
          · rw [if_neg h3] at h
            by_cases h4 : t.value = ("do").data
            · rw [if_pos h4] at h; exact ihDo q hq e q2 h
            · rw [if_neg h4] at h
              by_cases h5 : t.value = ("return").data
              · rw [if_pos h5] at h; exact ihRet q hq e q2 h
              · rw [if_neg h5] at h; cases h
    · -- parseLetStatement
      intro q hq e q2 h
      rw [parseLetStatement] at h
      simp only [Option.pure_def, Option.bind_eq_bind, Option.bind_eq_some,
        Option.some.injEq, Prod.mk.injEq] at h
      obtain ⟨⟨kw, qa⟩, h1, ⟨vn, qb⟩, h2, t, hpk, h⟩ := h
      obtain ⟨hkw, hqa⟩ := pnext_clean hq h1
      obtain ⟨hvn, hqb⟩ := parseVarName_clean hqa vn qb h2
      by_cases hb : t.value = ("[").data
      · rw [if_pos hb] at h
        simp only [Option.pure_def, Option.bind_eq_bind, Option.bind_eq_some,
          Option.some_bind, Option.some.injEq, Prod.mk.injEq] at h
        obtain ⟨⟨ob, qx⟩, hx1, ⟨ex, qy⟩, hx2, ⟨cb, qz⟩, hx3, ⟨eqs, qd⟩, h4,
          ⟨rhs, qe⟩, h5, ⟨sc, qf⟩, h6, he, hq2⟩ := h
        subst he
        obtain rfl : qf = q2 := hq2
        obtain ⟨hob, hqx⟩ := pnext_clean hqb hx1
        obtain ⟨hex, hqy⟩ := ihExp qx hqx ex qy hx2
        obtain ⟨hcb, hqz⟩ := pnext_clean hqy hx3
        obtain ⟨heqs, hqd⟩ := pnext_clean hqz h4
        obtain ⟨hrhs, hqe⟩ := ihExp qd hqd rhs qe h5
        obtain ⟨hsc, hqf⟩ := pnext_clean hqe h6
        refine ⟨CleanT.node _ _ (by rfl) ?_, hqf⟩
        intro c hc
        simp only [List.mem_cons, List.mem_append, List.not_mem_nil, or_false,
          false_or] at hc
        rcases hc with rfl | rfl | (rfl | rfl | rfl) | rfl | rfl | rfl
        · exact cleanT_keywordLeaf hkw
        · exact hvn
        · exact cleanT_symbolLeaf hob
        · exact hex
        · exact cleanT_symbolLeaf hcb
        · exact cleanT_symbolLeaf heqs
        · exact hrhs
        · exact cleanT_symbolLeaf hsc
      · rw [if_neg hb] at h
        simp only [Option.pure_def, Option.bind_eq_bind, Option.bind_eq_some,
          Option.some_bind, Option.some.injEq, Prod.mk.injEq] at h
        obtain ⟨⟨eqs, qd⟩, h4, ⟨rhs, qe⟩, h5, ⟨sc, qf⟩, h6, he, hq2⟩ := h
        subst he; subst hq2
        obtain ⟨heqs, hqd⟩ := pnext_clean hqb h4
        obtain ⟨hrhs, hqe⟩ := ihExp qd hqd rhs qe h5
        obtain ⟨hsc, hqf⟩ := pnext_clean hqe h6
        refine ⟨CleanT.node _ _ (by rfl) ?_, hqf⟩
        intro c hc
        simp only [List.mem_cons, List.mem_append, List.not_mem_nil, or_false,
          false_or, List.nil_append] at hc
        rcases hc with rfl | rfl | rfl | rfl | rfl
        · exact cleanT_keywordLeaf hkw
        · exact hvn
        · exact cleanT_symbolLeaf heqs
        · exact hrhs
        · exact cleanT_symbolLeaf hsc
    · -- parseIfStatement
      intro q hq e q2 h
      rw [parseIfStatement] at h
      obtain ⟨⟨kw, qa⟩, h1, h⟩ := bind_some_elim h
      obtain ⟨⟨lp, qb⟩, h2, h⟩ := bind_some_elim h
      obtain ⟨⟨cond, qc⟩, h3, h⟩ := bind_some_elim h
      obtain ⟨⟨rp, qd⟩, h4, h⟩ := bind_some_elim h
      obtain ⟨⟨ob, qe⟩, h5, h⟩ := bind_some_elim h
      obtain ⟨⟨st, qf⟩, h6, h⟩ := bind_some_elim h
      obtain ⟨⟨cb, qg⟩, h7, h⟩ := bind_some_elim h
      obtain ⟨t, hpk, h⟩ := bind_some_elim h
      obtain ⟨hkw, hqa⟩ := pnext_clean hq h1
      obtain ⟨hlp, hqb⟩ := pnext_clean hqa h2
      obtain ⟨hcond, hqc⟩ := ihExp qb hqb cond qc h3
      obtain ⟨hrp, hqd⟩ := pnext_clean hqc h4
      obtain ⟨hob, hqe⟩ := pnext_clean hqd h5
      obtain ⟨hst, hqf⟩ := ihSt qe hqe st qf h6
      obtain ⟨hcb, hqg⟩ := pnext_clean hqf h7
      by_cases hb : t.value = ("else").data
      · simp only [if_pos hb] at h
        obtain ⟨⟨ek, qx⟩, hx1, h⟩ := bind_some_elim h
        obtain ⟨⟨eob, qy⟩, hx2, h⟩ := bind_some_elim h
        obtain ⟨⟨est, qz⟩, hx3, h⟩ := bind_some_elim h
        obtain ⟨⟨ecb, qw⟩, hx4, h⟩ := bind_some_elim h
        obtain ⟨hek, hqx⟩ := pnext_clean hqg hx1
        obtain ⟨heob, hqy⟩ := pnext_clean hqx hx2
        obtain ⟨hest, hqz⟩ := ihSt qy hqy est qz hx3
        obtain ⟨hecb, hqw⟩ := pnext_clean hqz hx4
        simp only [Option.pure_def, Option.bind_eq_bind, Option.some_bind,
          Option.some.injEq, Prod.mk.injEq] at h
        obtain ⟨he, hq2⟩ := h
        subst he; subst hq2
        refine ⟨CleanT.node _ _ (by rfl) ?_, hqw⟩
        intro c hc
        simp only [List.mem_cons, List.mem_append, List.not_mem_nil,
          or_false] at hc
        rcases hc with rfl | rfl | rfl | rfl | rfl | ((hc | rfl) | rfl | rfl | hc | rfl)
        · exact cleanT_keywordLeaf hkw
        · exact cleanT_symbolLeaf hlp
        · exact hcond
        · exact cleanT_symbolLeaf hrp
        · exact cleanT_symbolLeaf hob
        · cases hstv : st with
          | none => rw [hstv] at hc; simp at hc
          | some y =>
            rw [hstv] at hc
            simp only [Option.toList_some, List.mem_singleton] at hc
            rw [hc]
            exact hst y (by rw [hstv])
        · exact cleanT_symbolLeaf hcb
        · exact cleanT_keywordLeaf hek
        · exact cleanT_symbolLeaf heob
        · cases hstv : est with
          | none => rw [hstv] at hc; simp at hc
          | some y =>
            rw [hstv] at hc
            simp only [Option.toList_some, List.mem_singleton] at hc
            rw [hc]
            exact hest y (by rw [hstv])
        · exact cleanT_symbolLeaf hecb
      · simp only [if_neg hb] at h
        simp only [Option.pure_def, Option.bind_eq_bind, Option.some_bind,
          Option.some.injEq, Prod.mk.injEq] at h
        obtain ⟨he, hq2⟩ := h
        subst he; subst hq2
        refine ⟨CleanT.node _ _ (by rfl) ?_, hqg⟩
        intro c hc
        simp only [List.mem_cons, List.mem_append, List.not_mem_nil,
          or_false, List.append_nil] at hc
        rcases hc with rfl | rfl | rfl | rfl | rfl | hc | rfl
        · exact cleanT_keywordLeaf hkw
        · exact cleanT_symbolLeaf hlp
        · exact hcond
        · exact cleanT_symbolLeaf hrp
        · exact cleanT_symbolLeaf hob
        · cases hstv : st with
          | none => rw [hstv] at hc; simp at hc
          | some y =>
            rw [hstv] at hc
            simp only [Option.toList_some, List.mem_singleton] at hc
            rw [hc]
            exact hst y (by rw [hstv])
        · exact cleanT_symbolLeaf hcb
    · -- parseWhileStatement
      intro q hq e q2 h
      rw [parseWhileStatement] at h
      simp only [Option.pure_def, Option.bind_eq_bind, Option.bind_eq_some,
        Option.some.injEq, Prod.mk.injEq] at h
      obtain ⟨⟨kw, qa⟩, h1, ⟨lp, qb⟩, h2, ⟨cond, qc⟩, h3, ⟨rp, qd⟩, h4,
        ⟨ob, qe⟩, h5, ⟨st, qf⟩, h6, ⟨cb, qg⟩, h7, he, hq2⟩ := h
      subst he; subst hq2
      obtain ⟨hkw, hqa⟩ := pnext_clean hq h1
      obtain ⟨hlp, hqb⟩ := pnext_clean hqa h2
      obtain ⟨hcond, hqc⟩ := ihExp qb hqb cond qc h3
      obtain ⟨hrp, hqd⟩ := pnext_clean hqc h4
      obtain ⟨hob, hqe⟩ := pnext_clean hqd h5
      obtain ⟨hst, hqf⟩ := ihSt qe hqe st qf h6
      obtain ⟨hcb, hqg⟩ := pnext_clean hqf h7
      refine ⟨CleanT.node _ _ (by rfl) ?_, hqg⟩
      intro c hc
      simp only [List.mem_cons, List.mem_append] at hc
      rcases hc with rfl | rfl | rfl | rfl | rfl | hc | hc
      · exact cleanT_keywordLeaf hkw
      · exact cleanT_symbolLeaf hlp
      · exact hcond
      · exact cleanT_symbolLeaf hrp
      · exact cleanT_symbolLeaf hob
      · cases hstv : st with
        | none => rw [hstv] at hc; simp at hc
        | some y =>
          rw [hstv] at hc
          simp only [Option.toList_some, List.mem_singleton] at hc
          rw [hc]
          exact hst y (by rw [hstv])
      · rcases hc with rfl | hc
        · exact cleanT_symbolLeaf hcb
        · simp at hc
    · -- parseDoStatement
      intro q hq e q2 h
      rw [parseDoStatement] at h
      simp only [Option.pure_def, Option.bind_eq_bind, Option.bind_eq_some,
        Option.some.injEq, Prod.mk.injEq] at h
      obtain ⟨⟨kw, qa⟩, h1, ⟨call, qb⟩, h2, ⟨sc, qc⟩, h3, he, hq2⟩ := h
      subst he; subst hq2
      obtain ⟨hkw, hqa⟩ := pnext_clean hq h1
      obtain ⟨hcall, hqb⟩ := ihCall qa hqa call qb h2
      obtain ⟨hsc, hqc⟩ := pnext_clean hqb h3
      refine ⟨CleanT.node _ _ (by rfl) ?_, hqc⟩
      intro c hc
      rcases List.mem_cons.mp hc with rfl | hc
      · exact cleanT_keywordLeaf hkw
      · rcases List.mem_cons.mp hc with rfl | hc
        · exact hcall
        · rcases List.mem_cons.mp hc with rfl | hc
          · exact cleanT_symbolLeaf hsc
          · simp at hc
    · -- parseReturnStatement
      intro q hq e q2 h
      rw [parseReturnStatement] at h
      simp only [Option.pure_def, Option.bind_eq_bind, Option.bind_eq_some,
        Option.some.injEq, Prod.mk.injEq] at h
      obtain ⟨⟨kw, qa⟩, h1, t, hpk, h⟩ := h
      obtain ⟨hkw, hqa⟩ := pnext_clean hq h1
      by_cases hb : t.value = (";").data
      · rw [if_pos hb] at h
        simp only [Option.pure_def, Option.bind_eq_bind, Option.bind_eq_some,
          Option.some_bind, Option.some.injEq, Prod.mk.injEq] at h
        obtain ⟨⟨sc, qc⟩, h3, he, hq2⟩ := h
        subst he; subst hq2
        obtain ⟨hsc, hqc⟩ := pnext_clean hqa h3
        refine ⟨CleanT.node _ _ (by rfl) ?_, hqc⟩
        intro c hc
        simp only [List.mem_cons, List.mem_append, List.not_mem_nil, or_false,
          false_or, List.nil_append] at hc
        rcases hc with rfl | rfl
        · exact cleanT_keywordLeaf hkw
        · exact cleanT_symbolLeaf hsc
      · rw [if_neg hb] at h
        simp only [Option.pure_def, Option.bind_eq_bind, Option.bind_eq_some,
          Option.some_bind, Option.some.injEq, Prod.mk.injEq] at h
        obtain ⟨⟨e1, qx⟩, hx1, ⟨sc, qc⟩, h3, he, hq2⟩ := h
        subst he; subst hq2
        obtain ⟨he1, hqx⟩ := ihExp qa hqa e1 qx hx1
        obtain ⟨hsc, hqc⟩ := pnext_clean hqx h3
        refine ⟨CleanT.node _ _ (by rfl) ?_, hqc⟩
        intro c hc
        simp only [List.mem_cons, List.mem_append, List.not_mem_nil, or_false,
          false_or] at hc
        rcases hc with rfl | rfl | rfl
        · exact cleanT_keywordLeaf hkw
        · exact he1
        · exact cleanT_symbolLeaf hsc
    · -- parseSubroutineCall
      intro q hq e q2 h
      rw [parseSubroutineCall] at h
      simp only [Option.pure_def, Option.bind_eq_bind, Option.bind_eq_some,
        Option.some.injEq, Prod.mk.injEq] at h
      obtain ⟨⟨focl, qa⟩, h1, t, hpk, h⟩ := h
      obtain ⟨hfocl, hqa⟩ := pnext_clean hq h1
      by_cases hc : t.value = (".").data
      · rw [if_pos hc] at h
        simp only [Option.bind_eq_some] at h
        obtain ⟨⟨cn, qb⟩, h2, ⟨dot, qc⟩, h3, ⟨sn, qd⟩, h4, h5⟩ := h
        obtain ⟨hcn, hqb⟩ :=
          parseClassName_clean (cleanQ_cons hfocl hqa) cn qb h2
        obtain ⟨hdot, hqc⟩ := pnext_clean hqb h3
        obtain ⟨hsn, hqd⟩ := parseSubroutineName_clean hqc sn qd h4
        refine ihCallT [cn, symbolLeaf dot.value, sn] qd ?_ hqd e q2 h5
        intro x hx
        rcases List.mem_cons.mp hx with rfl | hx
        · exact hcn
        · rcases List.mem_cons.mp hx with rfl | hx
          · exact cleanT_symbolLeaf hdot
          · rcases List.mem_cons.mp hx with rfl | hx
            · exact hsn
            · simp at hx
      · rw [if_neg hc] at h
        simp only [Option.bind_eq_some] at h
        obtain ⟨⟨sn, qb⟩, h2, h3⟩ := h
        obtain ⟨hsn, hqb⟩ := parseSubroutineName_clean hqa sn qb h2
        refine ihCallT [sn] qb ?_ hqb e q2 h3
        intro x hx
        rcases List.mem_cons.mp hx with rfl | hx
        · exact hsn
        · simp at hx
    · -- parseSubroutineCallTail
      intro kids q hkids hq e q2 h
      rw [parseSubroutineCallTail] at h
      simp only [Option.pure_def, Option.bind_eq_bind, Option.bind_eq_some,
        Option.some.injEq, Prod.mk.injEq] at h
      obtain ⟨⟨lp, qa⟩, h1, t, hpk, h⟩ := h
      obtain ⟨hlp, hqa⟩ := pnext_clean hq h1
      by_cases hb : t.value = (")").data
      · rw [if_pos hb] at h
        simp only [Option.pure_def, Option.bind_eq_bind, Option.bind_eq_some,
          Option.some_bind, Option.some.injEq, Prod.mk.injEq] at h
        obtain ⟨⟨rp, qc⟩, h3, he, hq2⟩ := h
        subst he; subst hq2
        obtain ⟨hrp, hqc⟩ := pnext_clean hqa h3
        refine ⟨CleanT.node _ _ (by rfl) ?_, hqc⟩
        intro c hc
        simp only [List.mem_cons, List.mem_append, List.not_mem_nil, or_false,
          false_or, List.nil_append] at hc
        rcases hc with hc | rfl | rfl
        · exact hkids c hc
        · exact cleanT_symbolLeaf hlp
        · exact cleanT_symbolLeaf hrp
      · rw [if_neg hb] at h
        simp only [Option.pure_def, Option.bind_eq_bind, Option.bind_eq_some,
          Option.some_bind, Option.some.injEq, Prod.mk.injEq] at h
        obtain ⟨⟨el, qx⟩, hx1, ⟨rp, qc⟩, h3, he, hq2⟩ := h
        subst he; subst hq2
        obtain ⟨hel, hqx⟩ := ihEL qa hqa el qx hx1
        obtain ⟨hrp, hqc⟩ := pnext_clean hqx h3
        refine ⟨CleanT.node _ _ (by rfl) ?_, hqc⟩
        intro c hc
        simp only [List.mem_cons, List.mem_append, List.not_mem_nil, or_false,
          false_or] at hc
        rcases hc with hc | rfl | rfl | rfl
        · exact hkids c hc
        · exact cleanT_symbolLeaf hlp
        · exact hel
        · exact cleanT_symbolLeaf hrp
    · -- parseExpressionList
      intro q hq e q2 h
      rw [parseExpressionList] at h
      simp only [Option.pure_def, Option.bind_eq_bind, Option.bind_eq_some,
        Option.some.injEq, Prod.mk.injEq] at h
      obtain ⟨⟨kids, qa⟩, h1, he, hq2⟩ := h
      subst he; subst hq2
      obtain ⟨hkids, hqa⟩ := ihELL q hq kids qa h1
      exact ⟨CleanT.node _ _ (by rfl) hkids, hqa⟩
    · -- parseExpressionListLoop
      intro q hq es q2 h
      rw [parseExpressionListLoop] at h
      simp only [Option.pure_def, Option.bind_eq_bind, Option.bind_eq_some,
        Option.some.injEq, Prod.mk.injEq] at h
      obtain ⟨⟨e1, qa⟩, h1, t, hpk, h⟩ := h
      obtain ⟨he1, hqa⟩ := ihExp q hq e1 qa h1
      by_cases hc : t.value = (",").data
      · rw [if_pos hc] at h
        simp only [Option.bind_eq_some, Option.some.injEq, Prod.mk.injEq] at h
        obtain ⟨⟨c0, qb⟩, h2, ⟨kids, qc⟩, h3, hes, hq2⟩ := h
        subst hes; subst hq2
        obtain ⟨hc0, hqb⟩ := pnext_clean hqa h2
        obtain ⟨hkids, hqc⟩ := ihELL qb hqb kids qc h3
        refine ⟨?_, hqc⟩
        intro x hx
        rcases List.mem_cons.mp hx with rfl | hx
        · exact he1
        · rcases List.mem_cons.mp hx with rfl | hx
          · exact cleanT_symbolLeaf hc0
          · exact hkids x hx
      · rw [if_neg hc] at h
        simp only [Option.some.injEq, Prod.mk.injEq] at h
        obtain ⟨hes, hq2⟩ := h
        subst hes; subst hq2
        refine ⟨?_, hqa⟩
        intro x hx
        rcases List.mem_cons.mp hx with rfl | hx
        · exact he1
        · simp at hx
    · -- parseExpression
      intro q hq e q2 h
      rw [parseExpression] at h
      simp only [Option.pure_def, Option.bind_eq_bind, Option.bind_eq_some,
        Option.some.injEq, Prod.mk.injEq] at h
      obtain ⟨⟨t1, qa⟩, h1, ⟨kids, qb⟩, h2, he, hq2⟩ := h
      subst he; subst hq2
      obtain ⟨ht1, hqa⟩ := ihTerm q hq t1 qa h1
      obtain ⟨hkids, hqb⟩ := ihExpO qa hqa kids qb h2
      refine ⟨CleanT.node _ _ (by rfl) ?_, hqb⟩
      intro c hc
      rcases List.mem_cons.mp hc with rfl | hc
      · exact ht1
      · exact hkids c hc
    · -- parseExpressionOps
      intro q hq es q2 h
      rw [parseExpressionOps] at h
      simp only [Option.pure_def, Option.bind_eq_bind, Option.bind_eq_some,
        Option.some.injEq, Prod.mk.injEq] at h
      obtain ⟨t, hpk, h⟩ := h
      by_cases hc : isBinaryOp t.value = true
      · rw [if_pos hc] at h
        simp only [Option.bind_eq_some, Option.some.injEq, Prod.mk.injEq] at h
        obtain ⟨⟨opn, qa⟩, h1, ⟨tm, qb⟩, h2, ⟨kids, qc⟩, h3, hes, hq2⟩ := h
        subst hes; subst hq2
        obtain ⟨hopn, hqa⟩ := parseOp_clean hq opn qa h1
        obtain ⟨htm, hqb⟩ := ihTerm qa hqa tm qb h2
        obtain ⟨hkids, hqc⟩ := ihExpO qb hqb kids qc h3
        refine ⟨?_, hqc⟩
        intro x hx
        rcases List.mem_cons.mp hx with rfl | hx
        · exact hopn
        · rcases List.mem_cons.mp hx with rfl | hx
          · exact htm
          · exact hkids x hx
      · rw [if_neg hc] at h
        simp only [Option.some.injEq, Prod.mk.injEq] at h
        obtain ⟨hes, hq2⟩ := h
        subst hes; subst hq2
        exact ⟨by intro x hx; simp at hx, hq⟩
    · -- parseTerm
      intro q hq e q2 h
      rw [parseTerm] at h
      simp only [Option.pure_def, Option.bind_eq_bind, Option.bind_eq_some,
        Option.some.injEq, Prod.mk.injEq] at h
      obtain ⟨t, hpk, h⟩ := h
      by_cases hic : t.token = TokenType.IntegerConstant
      · rw [if_pos hic] at h
        simp only [Option.bind_eq_some, Option.some.injEq, Prod.mk.injEq] at h
        obtain ⟨⟨c0, qa⟩, h1, he, hq2⟩ := h
        subst he; subst hq2
        obtain ⟨hc0, hqa⟩ := parseIntegerConstant_clean hq c0 qa h1
        exact ⟨cleanT_node1 (by rfl) hc0, hqa⟩
      · rw [if_neg hic] at h
        by_cases hsc : t.token = TokenType.StringConstant
        · rw [if_pos hsc] at h
          simp only [Option.bind_eq_some, Option.some.injEq, Prod.mk.injEq] at h
          obtain ⟨⟨c0, qa⟩, h1, he, hq2⟩ := h
          subst he; subst hq2
          obtain ⟨hc0, hqa⟩ := parseStringConstant_clean hq c0 qa h1
          exact ⟨cleanT_node1 (by rfl) hc0, hqa⟩
        · rw [if_neg hsc] at h
          by_cases hkc : t.value = ("true").data ∨ t.value = ("false").data ∨
              t.value = ("null").data ∨ t.value = ("this").data
          · rw [if_pos hkc] at h
            simp only [Option.bind_eq_some, Option.some.injEq,
              Prod.mk.injEq] at h
            obtain ⟨⟨c0, qa⟩, h1, he, hq2⟩ := h
            subst he; subst hq2
            obtain ⟨hc0, hqa⟩ := parseKeywordConstant_clean hq c0 qa h1
            exact ⟨cleanT_node1 (by rfl) hc0, hqa⟩
          · rw [if_neg hkc] at h
            by_cases hpar : t.value = ("(").data
            · rw [if_pos hpar] at h
              simp only [Option.bind_eq_some, Option.some.injEq,
                Prod.mk.injEq] at h
              obtain ⟨⟨ob, qa⟩, h1, ⟨ex, qb⟩, h2, ⟨cb, qc⟩, h3, he, hq2⟩ := h
              subst he; subst hq2
              obtain ⟨hob, hqa⟩ := pnext_clean hq h1
              obtain ⟨hex, hqb⟩ := ihExp qa hqa ex qb h2
              obtain ⟨hcb, hqc⟩ := pnext_clean hqb h3
              refine ⟨CleanT.node _ _ (by rfl) ?_, hqc⟩
              intro c hc
              rcases List.mem_cons.mp hc with rfl | hc
              · exact cleanT_symbolLeaf hob
              · rcases List.mem_cons.mp hc with rfl | hc
                · exact hex
                · rcases List.mem_cons.mp hc with rfl | hc
                  · exact cleanT_symbolLeaf hcb
                  · simp at hc
            · rw [if_neg hpar] at h
              by_cases hun : t.value = ("-").data ∨ t.value = ("~").data
              · rw [if_pos hun] at h
                simp only [Option.bind_eq_some, Option.some.injEq,
                  Prod.mk.injEq] at h
                obtain ⟨⟨u, qa⟩, h1, ⟨tm, qb⟩, h2, he, hq2⟩ := h
                subst he; subst hq2
                obtain ⟨hu, hqa⟩ := parseUnaryOp_clean hq u qa h1
                obtain ⟨htm, hqb⟩ := ihTerm qa hqa tm qb h2
                refine ⟨CleanT.node _ _ (by rfl) ?_, hqb⟩
                intro c hc
                rcases List.mem_cons.mp hc with rfl | hc
                · exact hu
                · rcases List.mem_cons.mp hc with rfl | hc
                  · exact htm
                  · simp at hc
              · rw [if_neg hun] at h
                simp only [Option.bind_eq_some, Option.some.injEq,
                  Prod.mk.injEq] at h
                obtain ⟨⟨v, qa⟩, h1, b, hpk2, h⟩ := h
                obtain ⟨hv, hqa⟩ := pnext_clean hq h1
                by_cases hbr : b.value = ("[").data
                · rw [if_pos hbr] at h
                  simp only [Option.bind_eq_some, Option.some.injEq,
                    Prod.mk.injEq] at h
                  obtain ⟨⟨ob, qb⟩, h2, ⟨ex, qc⟩, h3, ⟨cb, qd⟩, h4,
                    he, hq2⟩ := h
                  subst he; subst hq2
                  obtain ⟨hob, hqb⟩ := pnext_clean hqa h2
                  obtain ⟨hex, hqc⟩ := ihExp qb hqb ex qc h3
                  obtain ⟨hcb, hqd⟩ := pnext_clean hqc h4
                  refine ⟨CleanT.node _ _ (by rfl) ?_, hqd⟩
                  intro c hc
                  rcases List.mem_cons.mp hc with rfl | hc
                  · exact cleanT_identifierLeaf hv
                  · rcases List.mem_cons.mp hc with rfl | hc
                    · exact cleanT_symbolLeaf hob
                    · rcases List.mem_cons.mp hc with rfl | hc
                      · exact hex
                      · rcases List.mem_cons.mp hc with rfl | hc
                        · exact cleanT_symbolLeaf hcb
                        · simp at hc
                · rw [if_neg hbr] at h
                  by_cases hcall : b.value = ("(").data ∨ b.value = (".").data
                  · rw [if_pos hcall] at h
                    simp only [Option.bind_eq_some, Option.some.injEq,
                      Prod.mk.injEq] at h
                    obtain ⟨⟨sc, qb⟩, h2, he, hq2⟩ := h
                    subst he; subst hq2
                    obtain ⟨hsc2, hqb⟩ :=
                      ihCall (v :: qa) (cleanQ_cons hv hqa) sc qb h2
                    exact ⟨cleanT_node1 (by rfl) hsc2, hqb⟩
                  · rw [if_neg hcall] at h
                    simp only [Option.bind_eq_some, Option.some.injEq,
                      Prod.mk.injEq] at h
                    obtain ⟨⟨vn, qb⟩, h2, he, hq2⟩ := h
                    subst he; subst hq2
                    obtain ⟨hvn, hqb⟩ :=
                      parseVarName_clean (cleanQ_cons hv hqa) vn qb h2
                    exact ⟨cleanT_node1 (by rfl) hvn, hqb⟩

/-- C3: the claim says the literal text field2 tokenizes as one Identifier.
The KEYWORDS alternation has no word boundary, so the code instead returns
Keyword "field" and then IntegerConstant "2": the code contradicts the
documented tokenization. -/
theorem c3_field2_splits :
    nextTok 50 (("field2").data) =
      some (⟨TokenType.Keyword, ("field").data⟩, ("2").data) ∧
    nextTok 50 (("2").data) =
      some (⟨TokenType.IntegerConstant, ("2").data⟩, []) := by
  exact ⟨rfl, rfl⟩

/-- C5: the claim says each successful match consumes exactly the matched
character count.  On the four-character text `"é"1` the matched string
constant has three characters but four bytes, and the code removes a
character per byte: all four characters are consumed, silently swallowing
the digit 1 that was never part of the match. -/
theorem c5_byte_count_removed_as_chars :
    (("\"é\"1").data).length = 4 ∧
    stringMatch (("\"é\"1").data) = some ['"', 'é', '"'] ∧
    (['"', 'é', '"'] : List Char).length = 3 ∧
    utf8Len ['"', 'é', '"'] = 4 ∧
    nextTok 50 (("\"é\"1").data) =
      some (⟨TokenType.StringConstant, ['"', 'é', '"']⟩, []) := by
  exact ⟨rfl, rfl, rfl, rfl, rfl⟩

/-- C4 counterexample: on the remaining text `"é"` (first non-whitespace
character a quote, closing quote on the same line) Tokenizer::next does
not return a token at all: the matched value is three characters but four
bytes, and removing four characters from a three-character string panics
(modelled as none).  So next does not return exactly one token for every
state of the remaining text. -/
theorem c4_counterexample : nextTok 50 (("\"é\"").data) = none := by
  exact rfl

/-- C6 counterexample: the remaining text `"ü"` begins with a double quote
and has a later closing double quote on the same line, yet Tokenizer::next
returns no StringConstant token (the byte/char mismatch panics, modelled
as none). -/
theorem c6_counterexample : nextTok 50 (("\"ü\"").data) = none := by
  exact rfl

/-- C7 counterexample: on the input `"ò"1 2` the produced tokens are the
string constant and the integer 2; the digit 1 is in no token even though
it is neither whitespace nor a comment, so concatenating the token texts
does not reconstruct the input's token sequence. -/
theorem c7_counterexample :
    tokensForFile 50 (("\"ò\"1 2").data) =
      some [⟨TokenType.StringConstant, ['"', 'ò', '"']⟩,
            ⟨TokenType.IntegerConstant, ['2']⟩] := by
  exact rfl

/-- C1 counterexample: for the well-formed class `class Main { }` the
pipeline succeeds and produces output, but its lines are XML markup, not
stack-machine instructions: checking every line against the claimed
instruction forms yields false. -/
theorem c1_counterexample :
    (pipelineOutput 50 (("class Main \x7b \x7d").data)).map
        (fun o => (splitLines o).all specInstrLineB) = some false := by
  exact rfl

/-- C2 counterexample: the token stream of `class Main ( )` presents the
wrong symbol ( where the grammar requires the class's opening brace, yet
the parse does not abort: the pipeline succeeds and produces output,
because symbol positions are consumed without validation. -/
theorem c2_counterexample :
    tokensForFile 50 (("class Main ( )").data) =
      some [⟨TokenType.Keyword, ("class").data⟩,
            ⟨TokenType.Identifier, ("Main").data⟩,
            ⟨TokenType.Symbol, [ '(' ]⟩, ⟨TokenType.Symbol, [')']⟩] ∧
    (pipelineOutput 50 (("class Main ( )").data)).isSome = true := by
  exact ⟨rfl, rfl⟩

/-- C2 (amended): the parse aborts — with no output for the class — when
it consumes or peeks past the end of the token queue, and when a token
opening no statement stands where a statement is required; and no output
is ever produced from a failed tokenization or a failed parse.  (Wrong
symbols at specific-symbol positions do not abort; see the
counterexample.) -/
theorem c2_abort_semantics :
    (ppeek ([] : List Token) = none) ∧
    (pnext ([] : List Token) = none) ∧
    (∀ fuel q t, ppeek q = some t → isStatementKw t.value = false →
        parseStatement (fuel + 1) q = none) ∧
    (∀ fuel s, tokensForFile fuel s = none → pipelineOutput fuel s = none) ∧
    (∀ fuel s toks, tokensForFile fuel s = some toks →
        parseClass fuel toks = none → pipelineOutput fuel s = none) := by
  refine ⟨rfl, rfl, ?_, ?_, ?_⟩
  · intro fuel q t hpk hkw
    have hne : ¬ (t.value = ("let").data) ∧ ¬ (t.value = ("if").data) ∧
        ¬ (t.value = ("while").data) ∧ ¬ (t.value = ("do").data) ∧
        ¬ (t.value = ("return").data) := by
      simp only [isStatementKw, Bool.or_eq_false_iff, beq_eq_false_iff_ne, ne_eq] at hkw
      exact ⟨hkw.1.1.1.1, hkw.1.1.1.2, hkw.1.1.2, hkw.1.2, hkw.2⟩
    simp [parseStatement, hpk, hne.1, hne.2.1, hne.2.2.1, hne.2.2.2.1, hne.2.2.2.2]
  · intro fuel s h
    simp [pipelineOutput, h]
  · intro fuel s toks h1 h2
    simp [pipelineOutput, h1, vmFromTokens, parseTokens, h2]

/-- Witness for c2_abort_semantics at concrete inputs: a semicolon where a
statement is required aborts, and a file whose text yields no tokens
produces no output. -/
theorem c2_abort_semantics_witness :
    parseStatement 4 [⟨TokenType.Symbol, (";").data⟩] = none ∧
    pipelineOutput 9 (("@").data) = none := by
  constructor
  · exact c2_abort_semantics.2.2.1 3 [⟨TokenType.Symbol, (";").data⟩] _ rfl rfl
  · exact c2_abort_semantics.2.2.2.2 9 (("@").data) [] rfl rfl

/-- C9: the parser receives exactly the tokens collected before the first
EndOfFile — the text remaining at that point (here `@ return y`, which
still contains tokenizable text after the unmatched `@`) is silently
dropped without error — and parsing proceeds on that truncated list. -/
theorem c9_truncation :
    (∀ fuel s toks rest, tokensRun fuel s = some (toks, rest) →
        tokensForFile fuel s = some toks) ∧
    (∀ fuel s toks, tokensForFile fuel s = some toks →
        pipelineOutput fuel s = vmFromTokens fuel toks) ∧
    (tokensRun 50 (("let x @ return y").data) =
      some ([⟨TokenType.Keyword, ("let").data⟩, ⟨TokenType.Identifier, [ 'x' ]⟩],
            ("@ return y").data)) := by
  refine ⟨?_, ?_, rfl⟩
  · intro fuel s toks rest h
    simp [tokensForFile, h]
  · intro fuel s toks h
    simp [pipelineOutput, h]

/-- Witness for c9_truncation: the file `let x @ return y` hands the
parser exactly the two tokens before the unmatched character. -/
theorem c9_truncation_witness :
    tokensForFile 50 (("let x @ return y").data) =
      some [⟨TokenType.Keyword, ("let").data⟩, ⟨TokenType.Identifier, [ 'x' ]⟩] :=
  c9_truncation.1 50 _ _ _ c9_truncation.2.2

/-- C8 counterexample: in parse_subroutine_call on the bare-call queue
foo ( ) ; x the qualified branch is not taken and the consumed token foo
is dropped, not re-inserted: the re-dispatched parse_subroutine_name reads
the next token, recording the open parenthesis as the subroutine name, so
the queue was not restored to its pre-consumption state. -/
theorem c8_counterexample :
    parseSubroutineCall 50
        [⟨TokenType.Identifier, ("foo").data⟩, ⟨TokenType.Symbol, [ '(' ]⟩,
         ⟨TokenType.Symbol, [')']⟩, ⟨TokenType.Symbol, [';']⟩,
         ⟨TokenType.Identifier, [ 'x' ]⟩] =
      some (TreeElement.node ("subroutine_call").data
        [TreeElement.node ("subroutine_name").data [identifierLeaf [ '(' ]],
         symbolLeaf [')'],
         TreeElement.node ("expression_list").data
           [TreeElement.node ("expression").data
             [TreeElement.node ("term").data
               [TreeElement.node ("var_name").data [identifierLeaf [';']]]]],
         symbolLeaf [ 'x' ]], []) := by
  exact rfl

/-- C8 (amended): in parse_term, whenever the array-access branch is not
taken, the consumed token is re-inserted at the front before
re-dispatching, so the re-dispatched call receives exactly the original
queue (subroutine-call branch and bare-variable branch); in
parse_subroutine_call, only the qualified "." branch re-inserts the
consumed token — there the re-dispatched parse_class_name reads exactly
that token again — while the bare branch drops it (see the
counterexample). -/
theorem c8_lookahead_roundtrip :
    (∀ fuel t rest b, ppeek rest = some b →
        t.token ≠ TokenType.IntegerConstant →
        t.token ≠ TokenType.StringConstant →
        ¬(t.value = ("true").data ∨ t.value = ("false").data ∨
          t.value = ("null").data ∨ t.value = ("this").data) →
        t.value ≠ ("(").data →
        ¬(t.value = ("-").data ∨ t.value = ("~").data) →
        b.value ≠ ("[").data →
        (b.value = ("(").data ∨ b.value = (".").data) →
        parseTerm (fuel + 1) (t :: rest) =
          (parseSubroutineCall fuel (t :: rest)).map
            (fun p => (TreeElement.node ("term").data [p.1], p.2))) ∧
    (∀ fuel t rest b, ppeek rest = some b →
        t.token ≠ TokenType.IntegerConstant →
        t.token ≠ TokenType.StringConstant →
        ¬(t.value = ("true").data ∨ t.value = ("false").data ∨
          t.value = ("null").data ∨ t.value = ("this").data) →
        t.value ≠ ("(").data →
        ¬(t.value = ("-").data ∨ t.value = ("~").data) →
        b.value ≠ ("[").data → b.value ≠ ("(").data → b.value ≠ (".").data →
        parseTerm (fuel + 1) (t :: rest) =
          (parseVarName (t :: rest)).map
            (fun p => (TreeElement.node ("term").data [p.1], p.2))) ∧
    (∀ fuel t rest d, ppeek rest = some d → d.value = (".").data →
        parseSubroutineCall (fuel + 1) (t :: rest) = do
          let (dot, qb) ← pnext rest
          let (sn, qc) ← parseSubroutineName qb
          parseSubroutineCallTail fuel
            [TreeElement.node ("class_name").data [identifierLeaf t.value],
             symbolLeaf dot.value, sn] qc) := by
  refine ⟨?_, ?_, ?_⟩
  · intro fuel t rest b hb h1 h2 h3 h4 h5 h6 h7
    cases rest with
    | nil => exact absurd hb (by simp [ppeek])
    | cons b0 rest2 =>
      have hb0 : b0 = b := by simpa [ppeek] using hb
      subst hb0
      simp only [parseTerm, ppeek, pnext, Option.bind_eq_bind, Option.some_bind,
        if_neg h1, if_neg h2, if_neg h3, if_neg h4, if_neg h5, if_neg h6,
        if_pos h7]
      cases hsc : parseSubroutineCall fuel (t :: b0 :: rest2) <;> simp [hsc]
  · intro fuel t rest b hb h1 h2 h3 h4 h5 h6 h7 h8
    have h78 : ¬ (b.value = ("(").data ∨ b.value = (".").data) := by
      intro h; rcases h with h | h
      · exact h7 h
      · exact h8 h
    cases rest with
    | nil => exact absurd hb (by simp [ppeek])
    | cons b0 rest2 =>
      have hb0 : b0 = b := by simpa [ppeek] using hb
      subst hb0
      simp only [parseTerm, ppeek, pnext, Option.bind_eq_bind, Option.some_bind,
        if_neg h1, if_neg h2, if_neg h3, if_neg h4, if_neg h5, if_neg h6,
        if_neg h78]
      cases hvn : parseVarName (t :: b0 :: rest2) <;> simp [hvn]
  · intro fuel t rest d hd hdot
    cases rest with
    | nil => exact absurd hd (by simp [ppeek])
    | cons d0 rest2 =>
      have hd0 : d0 = d := by simpa [ppeek] using hd
      subst hd0
      simp only [parseSubroutineCall, ppeek, pnext, parseClassName,
        Option.bind_eq_bind, Option.some_bind, if_pos hdot]
      simp [Option.pure_def]

/-- Witness for c8_lookahead_roundtrip: the bare-variable branch on the
queue y ; re-dispatches on the original queue, and the qualified branch on
a . b ( ) re-reads the re-inserted identifier a as the class name. -/
theorem c8_lookahead_roundtrip_witness :
    (parseTerm 6 [⟨TokenType.Identifier, [ 'y' ]⟩, ⟨TokenType.Symbol, [';']⟩] =
      (parseVarName [⟨TokenType.Identifier, [ 'y' ]⟩, ⟨TokenType.Symbol, [';']⟩]).map
        (fun p => (TreeElement.node ("term").data [p.1], p.2))) ∧
    (parseSubroutineCall 6
        [⟨TokenType.Identifier, [ 'a' ]⟩, ⟨TokenType.Symbol, ['.']⟩,
         ⟨TokenType.Identifier, [ 'b' ]⟩, ⟨TokenType.Symbol, [ '(' ]⟩,
         ⟨TokenType.Symbol, [')']⟩] = do
      let (dot, qb) ← pnext [⟨TokenType.Symbol, ['.']⟩,
         ⟨TokenType.Identifier, [ 'b' ]⟩, ⟨TokenType.Symbol, [ '(' ]⟩,
         ⟨TokenType.Symbol, [')']⟩]
      let (sn, qc) ← parseSubroutineName qb
      parseSubroutineCallTail 5
        [TreeElement.node ("class_name").data [identifierLeaf [ 'a' ]],
         symbolLeaf dot.value, sn] qc) := by
  constructor
  · exact c8_lookahead_roundtrip.2.1 5 _ _ _ rfl (by simp) (by simp)
      (by simp) (by simp) (by simp) (by simp) (by simp) (by simp)
  · exact c8_lookahead_roundtrip.2.2 5 _ _ _ rfl rfl

/-- C10: parse_parameter_list itself consumes the token following the last
parameter name: a non-comma terminator ends the list unrecorded; a comma
is likewise swallowed unrecorded and the token after it is recorded as a
symbol leaf before the next parameter's type is read; and the caller
parse_subroutine_dec then consumes one further token as its
closing-parenthesis leaf. -/
theorem c10_parameter_list :
    (∀ fuel t1 t2 c q, c.value ≠ (",").data →
        parseParamLoop (fuel + 1) (t1 :: t2 :: c :: q) =
          some ([TreeElement.leaf ("type").data t1.value,
                 TreeElement.node ("var_name").data [identifierLeaf t2.value]], q)) ∧
    (∀ fuel t1 t2 c s q, c.value = (",").data →
        parseParamLoop (fuel + 1) (t1 :: t2 :: c :: s :: q) =
          (parseParamLoop fuel q).map (fun p =>
            (TreeElement.leaf ("type").data t1.value ::
             TreeElement.node ("var_name").data [identifierLeaf t2.value] ::
             symbolLeaf s.value :: p.1, p.2))) ∧
    (∀ fuel kw ty nm lp t1 t2 term r rest,
        (ty.value = ("int").data ∨ ty.value = ("char").data ∨
          ty.value = ("boolean").data) →
        ((t1.value = ("int").data ∨ t1.value = ("char").data ∨
          t1.value = ("boolean").data) ∨ t1.token = TokenType.Identifier) →
        term.value ≠ (",").data →
        parseSubroutineDec (fuel + 3)
            (kw :: ty :: nm :: lp :: t1 :: t2 :: term :: r :: rest) =
          (parseSubroutineBody (fuel + 2) rest).map (fun p =>
            (TreeElement.node ("subroutine_dec").data
              [keywordLeaf kw.value,
               TreeElement.node ("type").data [keywordLeaf ty.value],
               TreeElement.node ("subroutine_name").data [identifierLeaf nm.value],
               symbolLeaf lp.value,
               TreeElement.node ("parameter_list").data
                 [TreeElement.leaf ("type").data t1.value,
                  TreeElement.node ("var_name").data [identifierLeaf t2.value]],
               symbolLeaf r.value, p.1], p.2))) := by
  refine ⟨?_, ?_, ?_⟩
  · intro fuel t1 t2 c q hc
    simp [parseParamLoop, pnext, parseVarName, hc]
  · intro fuel t1 t2 c s q hc
    simp only [parseParamLoop, pnext, parseVarName, Option.pure_def,
      Option.bind_eq_bind, Option.some_bind, if_pos hc]
    cases hpl : parseParamLoop fuel q <;> simp [hpl]
  · intro fuel kw ty nm lp t1 t2 term r rest hty ht1 hterm
    have hvoid : ¬ (ty.value = ("void").data) := by
      rcases hty with h | h | h <;> simp [h]
    simp only [parseSubroutineDec, parseParameterList, parseParamLoop,
      parseSubroutineName, parseType, parseVarName, ppeek, pnext,
      Option.pure_def, Option.bind_eq_bind, Option.some_bind, if_neg hvoid,
      if_pos hty, if_pos ht1, if_neg hterm, Option.toList_some]
    cases hsb : parseSubroutineBody (fuel + 2) rest <;> simp [hsb]

/-- Witness for c10_parameter_list at concrete queues: a single int
parameter ended by a right parenthesis, a two-parameter list whose comma
swallows the following type keyword into a symbol leaf, and a full
subroutine declaration whose closing-parenthesis leaf receives the token
after the parameter-list terminator. -/
theorem c10_parameter_list_witness :
    (parseParamLoop 8 [⟨TokenType.Keyword, ("int").data⟩,
        ⟨TokenType.Identifier, [ 'a' ]⟩, ⟨TokenType.Symbol, [')']⟩,
        ⟨TokenType.Symbol, ['\x7b']⟩] =
      some ([TreeElement.leaf ("type").data (("int").data),
             TreeElement.node ("var_name").data [identifierLeaf [ 'a' ]]],
            [⟨TokenType.Symbol, ['\x7b']⟩])) ∧
    (parseParamLoop 8 [⟨TokenType.Keyword, ("int").data⟩,
        ⟨TokenType.Identifier, [ 'a' ]⟩, ⟨TokenType.Symbol, [',']⟩,
        ⟨TokenType.Keyword, ("int").data⟩, ⟨TokenType.Identifier, [ 'b' ]⟩] =
      (parseParamLoop 7 [⟨TokenType.Identifier, [ 'b' ]⟩]).map (fun p =>
        (TreeElement.leaf ("type").data (("int").data) ::
         TreeElement.node ("var_name").data [identifierLeaf [ 'a' ]] ::
         symbolLeaf (("int").data) :: p.1, p.2))) ∧
    (parseSubroutineDec 10
        [⟨TokenType.Keyword, ("function").data⟩, ⟨TokenType.Keyword, ("int").data⟩,
         ⟨TokenType.Identifier, [ 'f' ]⟩, ⟨TokenType.Symbol, [ '(' ]⟩,
         ⟨TokenType.Keyword, ("int").data⟩, ⟨TokenType.Identifier, [ 'a' ]⟩,
         ⟨TokenType.Symbol, [')']⟩, ⟨TokenType.Symbol, ['\x7b']⟩] =
      (parseSubroutineBody 9 ([] : List Token)).map (fun p =>
        (TreeElement.node ("subroutine_dec").data
          [keywordLeaf (("function").data),
           TreeElement.node ("type").data [keywordLeaf (("int").data)],
           TreeElement.node ("subroutine_name").data [identifierLeaf [ 'f' ]],
           symbolLeaf [ '(' ],
           TreeElement.node ("parameter_list").data
             [TreeElement.leaf ("type").data (("int").data),
              TreeElement.node ("var_name").data [identifierLeaf [ 'a' ]]],
           symbolLeaf ['\x7b'], p.1], p.2))) := by
  refine ⟨?_, ?_, ?_⟩
  · exact c10_parameter_list.1 7 _ _ _ _ (by simp)
  · exact c10_parameter_list.2.1 7 _ _ _ _ _ rfl
  · exact c10_parameter_list.2.2 7 _ _ _ _ _ _ _ _ _ (by simp) (by simp) (by simp)

/-- C4 (amended): on ASCII remaining text, Tokenizer::next always returns
exactly one token; and whenever the text after junk stripping matches no
pattern — including exhausted text — the result is the EndOfFile sentinel
with empty text, with nothing consumed and no error, for arbitrary
(not only ASCII) text. -/
theorem c4_next_one_token :
    (∀ s, allAscii s →
        ∃ tok rest, nextTok (s.length + 1) s = some (tok, rest)) ∧
    (∀ fuel s t, stripJunk fuel s = some t → matchToken t = none →
        nextTok fuel s = some (⟨TokenType.EndOfFile, []⟩, t)) := by
  constructor
  · intro s hs
    obtain ⟨t, hst, hta, htl⟩ :=
      stripJunk_ascii_total (s.length + 1) s hs (by omega)
    unfold nextTok
    simp only [hst]
    cases hmt : matchToken t with
    | none => simp only [hmt]; exact ⟨_, _, rfl⟩
    | some p =>
      obtain ⟨ty, v⟩ := p
      obtain ⟨hpre, hvne, _⟩ := matchToken_shape hmt
      obtain ⟨w, hw⟩ := hpre
      have hva : ∀ c ∈ v, c.toNat < 128 := by
        intro c hc
        exact hta c (by rw [← hw]; exact List.mem_append_left _ hc)
      have hlen : utf8Len v = v.length := utf8Len_ascii hva
      have hle : utf8Len v ≤ t.length := by rw [hlen, ← hw]; simp
      have hrf : removeFirst (utf8Len v) t = some w := by
        unfold removeFirst
        rw [if_pos hle, hlen, ← hw, List.drop_left]
      simp only [hmt, hrf]
      exact ⟨_, _, rfl⟩
  · intro fuel s t h1 h2
    unfold nextTok
    simp only [h1, h2]

/-- Witness for c4_next_one_token: ASCII text always yields a token, and
text whose head matches no pattern yields EndOfFile with nothing
consumed. -/
theorem c4_next_one_token_witness :
    (∃ tok rest,
        nextTok (((("let x").data)).length + 1) (("let x").data) =
          some (tok, rest)) ∧
    nextTok 3 (("@y").data) =
      some (⟨TokenType.EndOfFile, []⟩, ("@y").data) := by
  constructor
  · exact c4_next_one_token.1 (("let x").data) (by decide)
  · exact c4_next_one_token.2 3 (("@y").data) (("@y").data) rfl rfl

/-- C7 (amended): no produced token represents whitespace or a line
comment (its text is nonempty, starts with a non-whitespace character and
is never a comment opener); and on ASCII input the text decomposes exactly
into whitespace/comment junk interleaved with the produced token texts,
followed by the text remaining at EndOfFile. -/
theorem c7_tokens_reconstruct :
    (∀ fuel s tok rest, nextTok fuel s = some (tok, rest) →
        tok.token ≠ TokenType.EndOfFile →
        tok.value ≠ [] ∧
        (∀ c, tok.value.head? = some c → isRustWS c = false) ∧
        ¬ ('/' :: '/' :: []) <+: tok.value) ∧
    (∀ fuel s toks rest, allAscii s → tokensRun fuel s = some (toks, rest) →
        Reconstructs s toks rest) := by
  constructor
  · intro fuel s tok rest h hne
    unfold nextTok at h
    cases hsj : stripJunk fuel s with
    | none => rw [hsj] at h; cases h
    | some t =>
      rw [hsj] at h
      cases hmt : matchToken t with
      | none =>
        simp only [hmt] at h
        obtain ⟨h1, h2⟩ := Prod.mk.inj (Option.some.inj h)
        exact absurd (by rw [← h1]) hne
      | some p =>
        obtain ⟨ty, v⟩ := p
        obtain ⟨c, v2, hv, hws, hsl⟩ := matchToken_value_head hmt
        cases hrf : removeFirst (utf8Len v) t with
        | none => simp only [hmt, hrf] at h; cases h
        | some w =>
          simp only [hmt, hrf] at h
          obtain ⟨h1, h2⟩ := Prod.mk.inj (Option.some.inj h)
          have hval : tok.value = c :: v2 := by rw [← h1, hv]
          refine ⟨by simp [hval], ?_, ?_⟩
          · intro d hd
            rw [hval, List.head?_cons] at hd
            rw [← Option.some.inj hd]
            exact hws
          · intro hpre
            obtain ⟨w2, hw2⟩ := hpre
            rw [hval] at hw2
            obtain ⟨hc1, hc2⟩ := List.cons.inj hw2.symm
            rcases hsl with hsl | hsl
            · exact hsl hc1
            · rw [hsl] at hc2
              cases hc2
  · intro fuel
    induction fuel with
    | zero => intro s toks rest _ h; simp [tokensRun] at h
    | succ fuel ih =>
      intro s toks rest hs h
      rw [tokensRun] at h
      cases hnt : nextTok (fuel + 1) s with
      | none => simp only [hnt] at h; cases h
      | some p =>
        obtain ⟨tok, rest0⟩ := p
        obtain ⟨hra, hEOF, hnEOF⟩ := nextTok_decomp hs hnt
        simp only [hnt] at h
        by_cases he : tok.token = TokenType.EndOfFile
        · rw [if_pos he] at h
          obtain ⟨h1, h2⟩ := Prod.mk.inj (Option.some.inj h)
          obtain ⟨_, j, hj, hdec⟩ := hEOF he
          rw [hdec, ← h1, ← h2]
          exact Reconstructs.eof j rest0 hj
        · rw [if_neg he] at h
          cases htr : tokensRun fuel rest0 with
          | none => simp only [htr] at h; cases h
          | some q =>
            obtain ⟨toks2, r⟩ := q
            simp only [htr] at h
            obtain ⟨h1, h2⟩ := Prod.mk.inj (Option.some.inj h)
            obtain ⟨j, hj, hdec⟩ := hnEOF he
            have hrec := ih rest0 toks2 r hra htr
            rw [hdec, ← h1, ← h2]
            exact Reconstructs.tok j tok rest0 toks2 r hj hrec

/-- Witness for c7_tokens_reconstruct: the first token of "let x" is
real, non-junk, and the whole file reconstructs. -/
theorem c7_tokens_reconstruct_witness :
    ((⟨TokenType.Keyword, ("let").data⟩ : Token).value ≠ [] ∧
      (∀ c, (⟨TokenType.Keyword, ("let").data⟩ : Token).value.head? = some c →
        isRustWS c = false) ∧
      ¬ ('/' :: '/' :: []) <+:
          (⟨TokenType.Keyword, ("let").data⟩ : Token).value) ∧
    Reconstructs (("let x").data)
      [⟨TokenType.Keyword, ("let").data⟩, ⟨TokenType.Identifier, [ 'x' ]⟩]
      [] := by
  constructor
  · exact c7_tokens_reconstruct.1 9 (("let x").data)
      ⟨TokenType.Keyword, ("let").data⟩ ((" x").data) rfl (by simp)
  · exact c7_tokens_reconstruct.2 9 (("let x").data) _ _ (by decide) rfl

/-- C6 (amended): on ASCII text, whenever the remaining text after junk
stripping starts with a double quote and a later quote closes it on the
same line, next returns a StringConstant whose text runs from the opening
quote to the last quote of that line, character for character with no
escape processing; the line part of the unconsumed remainder holds no
further quote. -/
theorem c6_string_greedy :
    ∀ fuel s rest u w, allAscii s →
      stripJunk fuel s = some ('"' :: rest) →
      rest = u ++ '"' :: w → '\n' ∉ u →
      ∃ u2 w2,
        nextTok fuel s =
          some (⟨TokenType.StringConstant, '"' :: (u2 ++ ['"'])⟩, w2) ∧
        rest = u2 ++ '"' :: w2 ∧ '\n' ∉ u2 ∧
        '"' ∉ w2.takeWhile (fun d => d ≠ '\n') := by
  intro fuel s rest u w hs hsj hrest hu
  obtain ⟨⟨j, hj, hdec⟩, hta⟩ := stripJunk_decomp fuel s _ hs hsj
  have hresta : allAscii rest := fun c hc => hta c (by simp [hc])
  -- the line: everything before the first newline of rest
  have huq : ∀ c ∈ u, decide (c ≠ '\n') = true := by
    intro c hc
    rw [decide_eq_true_eq]
    intro hcn
    rw [hcn] at hc
    exact hu hc
  have hline : rest.takeWhile (fun d => d ≠ '\n') =
      u ++ ('"' :: w).takeWhile (fun d => d ≠ '\n') := by
    rw [hrest]
    exact takeWhile_append_all _ huq
  have hline2 : rest.takeWhile (fun d => d ≠ '\n') =
      u ++ '"' :: w.takeWhile (fun d => d ≠ '\n') := by
    rw [hline, List.takeWhile_cons_of_pos (by simp)]
  have hqline : '"' ∈ rest.takeWhile (fun d => d ≠ '\n') := by
    rw [hline2]; simp
  -- the last quote of the line
  cases hlq : lastQuoteIdx (rest.takeWhile (fun d => d ≠ '\n')) with
  | none => exact absurd hqline (lastQuoteIdx_none hlq)
  | some i =>
    obtain ⟨u2, w2, hldec, hu2len, hw2q⟩ := lastQuoteIdx_decomp hlq
    have hu2nl : '\n' ∉ u2 := by
      intro hmem
      have h3 : ('\n' : Char) ∈ rest.takeWhile (fun d => d ≠ '\n') := by
        rw [hldec]; simp [hmem]
      have h4 := List.mem_takeWhile_imp h3
      simp at h4
    have hw2nl : ∀ c ∈ w2, c ≠ '\n' := by
      intro c hmem
      have h3 : c ∈ rest.takeWhile (fun d => d ≠ '\n') := by
        rw [hldec]; simp [hmem]
      have h4 := List.mem_takeWhile_imp h3
      simpa using h4
    -- rest = line ++ tail with the tail starting at a newline (or empty)
    have hsplit : rest.takeWhile (fun d => d ≠ '\n') ++
        rest.dropWhile (fun d => d ≠ '\n') = rest :=
      List.takeWhile_append_dropWhile ..
    have hilen : i + 1 ≤ (rest.takeWhile (fun d => d ≠ '\n')).length := by
      rw [hldec, ← hu2len]; simp
    have htake : rest.take (i + 1) = u2 ++ ['"'] := by
      conv_lhs => rw [← hsplit]
      rw [List.take_append_of_le_length hilen, hldec, ← hu2len]
      have h5 : u2.length + 1 = u2.length + 1 := rfl
      rw [show u2.length + 1 = u2.length + 1 from rfl]
      rw [List.take_append]
      simp
    have hdrop : rest.drop (i + 1) =
        w2 ++ rest.dropWhile (fun d => d ≠ '\n') := by
      conv_lhs => rw [← hsplit]
      rw [List.drop_append_of_le_length hilen, hldec, ← hu2len,
        List.drop_append]
      simp
    -- the string pattern fires
    have hsm : stringMatch ('"' :: rest) = some ('"' :: rest.take (i + 1)) := by
      rw [stringMatch, if_pos rfl, hlq]
    have hkm : keywordMatch ('"' :: rest) = none := by
      unfold keywordMatch
      rw [List.find?_eq_none]
      intro k hk
      intro hp
      have hpre := List.isPrefixOf_iff_prefix.mp hp
      have hb : ∀ k2 ∈ keywordList, k2.headD ' ' ≠ '"' := by decide
      have hne : ∀ k2 ∈ keywordList, k2 ≠ ([] : List Char) := by decide
      cases k with
      | nil => exact hne [] hk rfl
      | cons c k2 =>
        obtain ⟨w3, hw3⟩ := hpre
        obtain ⟨hc, _⟩ := List.cons.inj hw3
        have := hb (c :: k2) hk
        simp only [List.headD_cons] at this
        exact this hc
    have hmt : matchToken ('"' :: rest) =
        some (TokenType.StringConstant, '"' :: rest.take (i + 1)) := by
      unfold matchToken
      rw [hkm]
      rw [symbolMatch, if_neg (by decide)]
      have hint : integerMatch ('"' :: rest) = none := by
        unfold integerMatch
        rw [List.takeWhile_cons_of_neg (by decide)]
        simp
      rw [hint, hsm]
    -- the byte count equals the character count on ASCII text
    have hva : ∀ c ∈ '"' :: rest.take (i + 1), c.toNat < 128 := by
      intro c hc
      rcases List.mem_cons.mp hc with hc | hc
      · rw [hc]; decide
      · exact hresta c (List.take_subset _ _ hc)
    have hlen : utf8Len ('"' :: rest.take (i + 1)) =
        ('"' :: rest.take (i + 1)).length := utf8Len_ascii hva
    have hle : utf8Len ('"' :: rest.take (i + 1)) ≤ ('"' :: rest).length := by
      rw [hlen]
      simp only [List.length_cons, Nat.add_le_add_iff_right]
      exact (List.take_prefix (i + 1) rest).sublist.length_le
    have hrf : removeFirst (utf8Len ('"' :: rest.take (i + 1))) ('"' :: rest) =
        some (w2 ++ rest.dropWhile (fun d => d ≠ '\n')) := by
      unfold removeFirst
      rw [if_pos hle, hlen]
      simp only [List.length_cons, List.drop_succ_cons]
      rw [List.length_take_of_le (Nat.le_trans hilen
        ((List.takeWhile_prefix _).sublist.length_le)), hdrop]
    refine ⟨u2, w2 ++ rest.dropWhile (fun d => d ≠ '\n'), ?_, ?_, hu2nl, ?_⟩
    · rw [htake] at hmt hrf
      unfold nextTok
      simp only [hsj, hmt, hrf]
    · conv_lhs => rw [← hsplit]
      rw [hldec]
      simp
    · rw [takeWhile_append_all _ (fun c hc => by
        simp only [ne_eq, decide_eq_true_eq]
        exact hw2nl c hc)]
      intro hmem
      rcases List.mem_append.mp hmem with hmem | hmem
      · exact hw2q hmem
      · cases htail : rest.dropWhile (fun d => d ≠ '\n') with
        | nil => rw [htail] at hmem; simp at hmem
        | cons d tl =>
          have hd := dropWhile_head_false htail
          simp only [ne_eq, decide_eq_false_iff_not, not_not] at hd
          rw [htail, hd] at hmem
          rw [List.takeWhile_cons_of_neg (by simp)] at hmem
          simp at hmem

/-- Witness for c6_string_greedy: on the text `"ab"cd"e` the string
constant runs from the opening quote to the last quote of the line, and
the remainder e holds no further quote. -/
theorem c6_string_greedy_witness :
    ∃ u2 w2,
      nextTok 9 (("\"ab\"cd\"e").data) =
        some (⟨TokenType.StringConstant, '"' :: (u2 ++ ['"'])⟩, w2) ∧
      (("ab\"cd\"e").data : List Char) = u2 ++ '"' :: w2 ∧ '\n' ∉ u2 ∧
      '"' ∉ w2.takeWhile (fun d => d ≠ '\n') :=
  c6_string_greedy 9 (("\"ab\"cd\"e").data) (("ab\"cd\"e").data)
    (("ab").data) (("cd\"e").data) (by decide) rfl rfl (by decide)

/-- C1 (amended): whenever the pipeline (Tokenizer then Parser) produces
an output unit for a source text, that output is XML markup — every line
is an opening tag, a closing tag, or a leaf element line, rather than a
stack-machine instruction. -/
theorem c1_xml_output :
    ∀ fuel content out, pipelineOutput fuel content = some out →
      ∀ l ∈ splitLines out, IsXmlLine l := by
  intro fuel content out h
  rw [pipelineOutput] at h
  obtain ⟨toks, htk, hvm⟩ := bind_some_elim h
  have hclean : CleanQ toks := by
    rw [tokensForFile] at htk
    cases hr : tokensRun fuel content with
    | none => rw [hr] at htk; cases htk
    | some p =>
      obtain ⟨ts, rest⟩ := p
      rw [hr] at htk
      simp only [Option.map_some', Option.some.injEq] at htk
      have hcl := tokensRun_clean fuel content ts rest hr
      rwa [htk] at hcl
  rw [vmFromTokens] at hvm
  cases hp : parseTokens fuel toks with
  | none => rw [hp] at hvm; cases hvm
  | some pr =>
    rw [hp] at hvm
    simp only [Option.map_some', Option.some.injEq] at hvm
    rw [parseTokens] at hp
    cases hc : parseClass fuel toks with
    | none => rw [hc] at hp; cases hp
    | some pc =>
      obtain ⟨e, q2⟩ := pc
      rw [hc] at hp
      simp only [Option.map_some', Option.some.injEq] at hp
      obtain ⟨hce, _⟩ := (parser_clean fuel).1 toks hclean e q2 hc
      have hx : XmlText (Tree.toXml ⟨e⟩) :=
        (cleanT_xmlText_bounded (treeSize e)).1 e le_rfl hce 0
      subst hp
      subst hvm
      exact xmlText_lines hx

/-- Witness for c1_xml_output: the well-formed class `class Main \x7b \x7d`
produces an output unit, and every one of its lines is an XML line. -/
theorem c1_xml_output_witness :
    IsXmlLine (("  <keyword>class</keyword>").data) :=
  c1_xml_output 50 (("class Main \x7b \x7d").data)
    (("<class>\n  <keyword>class</keyword>\n" ++
      "  <identifier>Main</identifier>\n  <symbol>\x7b</symbol>\n" ++
      "  <symbol>\x7d</symbol>\n</class>\n").data) rfl
    (("  <keyword>class</keyword>").data) (by decide)

end JackC
